import Mathlib

/-!
Verification of the `specializeUndef` graph pass
(`torch/csrc/jit/passes/specialize_undef.cpp`).

The pass propagates a three-state definedness lattice through a gradient
graph, eliminates `prim::GradOf` guard nodes, and simplifies
`prim::AutogradAdd` accumulations.  The embedding below translates the C++
directly: the mutable IR becomes explicit state passing over immutable
node lists, `Value*`/node identities become `Nat` ids, and the fatal
`JIT_ASSERT`/`at()` aborts become an `Except` error result.
-/

set_option maxHeartbeats 1000000

namespace SU

/-- Definedness lattice (source line 14:
`enum class State { Defined, Undefined, Unknown }`).  `Defined` is the first
enumerator, hence the value-initialized default of the C++ enum. -/
inductive State : Type where
  | Defined
  | Undefined
  | Unknown
deriving DecidableEq, Repr

/-- The static types the seeding (source lines 17–27) distinguishes:
`UndefinedTensorType`, `DynamicType`, and everything else. -/
inductive Ty : Type where
  | undefinedTensor
  | dynamic
  | otherTy
deriving DecidableEq, Repr

/-- `tp->isSubtypeOf(UndefinedTensorType::get())`. -/
def Ty.isSubUndefined : Ty → Bool
  | .undefinedTensor => true
  | _ => false

/-- `tp->isSubtypeOf(DynamicType::get())`: both tensor types are subtypes of
the fully generic dynamic tensor type. -/
def Ty.isSubDynamic : Ty → Bool
  | .undefinedTensor => true
  | .dynamic => true
  | .otherTy => false

/-- Node kinds.  `gradOf`, `autogradAdd`, `undefinedConst` are the three kinds
the switch recognizes (`prim::GradOf`, `prim::AutogradAdd`, `prim::Undefined`);
`addOp` is the ordinary addition node created for the Defined+Defined case
(`aten::add`, dispatched through the `default` branch like any other kind);
`otherK` covers all remaining kinds. -/
inductive NKind : Type where
  | gradOf
  | autogradAdd
  | undefinedConst
  | addOp
  | otherK (sym : Nat)
deriving DecidableEq, Repr

mutual
/-- A graph node: identity (`Node::unique`, modelling pointer identity),
kind tag, ordered input values, ordered output values, owned nested blocks. -/
inductive Node : Type where
  | mk (nid : Nat) (kind : NKind) (inputs : List Nat) (outputs : List Nat)
      (blocks : Blks) : Node

/-- The list of blocks owned by a node. -/
inductive Blks : Type where
  | nil : Blks
  | cons (b : Blk) (bs : Blks) : Blks

/-- A block: an owned ordered node sequence plus declared block outputs. -/
inductive Blk : Type where
  | mk (nodes : NodeList) (boutputs : List Nat) : Blk

/-- The node sequence of a block. -/
inductive NodeList : Type where
  | nil : NodeList
  | cons (n : Node) (ns : NodeList) : NodeList
end

def Node.nid : Node → Nat
  | .mk i _ _ _ _ => i

def Node.kind : Node → NKind
  | .mk _ k _ _ _ => k

def Node.inputs : Node → List Nat
  | .mk _ _ ins _ _ => ins

def Node.outputs : Node → List Nat
  | .mk _ _ _ outs _ => outs

def Node.blocks : Node → Blks
  | .mk _ _ _ _ bs => bs

def Blk.bnodes : Blk → NodeList
  | .mk ns _ => ns

def Blk.boutputs : Blk → List Nat
  | .mk _ os => os

/-- `n->blocks().at(0)`, which throws on an empty block list. -/
def Node.firstBlock : Node → Option Blk
  | .mk _ _ _ _ .nil => none
  | .mk _ _ _ _ (.cons b _) => some b

def NodeList.toList : NodeList → List Node
  | .nil => []
  | .cons n ns => n :: ns.toList

/-- The transient state mapping (`std::unordered_map<Value*, State>`). -/
def SMap : Type := Nat → Option State

def SMap.empty : SMap := fun _ => none

/-- Point update (`state[v] = st`). -/
def upd (s : SMap) (k : Nat) (st : State) : SMap :=
  fun v => if v = k then some st else s v

/-- A state read mirrors `state[v]` on the C++ map: a missing key is
value-initialized, and a value-initialized `State` is its first enumerator,
`Defined`.  (The insertion `operator[]` performs is unobservable: a
default-read value is never subsequently written by the pass.) -/
def stateGet (s : SMap) (v : Nat) : State := (s v).getD .Defined

/-- Use substitution on a single value reference. -/
def substV (a b v : Nat) : Nat := if v = a then b else v

mutual
/-- `Value::replaceAllUsesWith`: rewrite every use of `a` to `b`.  Uses are a
node's inputs and, recursively, all uses inside its nested blocks including
the blocks' declared outputs; a node's own outputs are definitions, never
uses. -/
def substNode (a b : Nat) : Node → Node
  | .mk i k ins outs bs => .mk i k (ins.map (substV a b)) outs (substBlks a b bs)

def substBlks (a b : Nat) : Blks → Blks
  | .nil => .nil
  | .cons bl bs => .cons (substBlk a b bl) (substBlks a b bs)

def substBlk (a b : Nat) : Blk → Blk
  | .mk ns os => .mk (substNodeList a b ns) (os.map (substV a b))

def substNodeList (a b : Nat) : NodeList → NodeList
  | .nil => .nil
  | .cons n ns => .cons (substNode a b n) (substNodeList a b ns)
end

def substNodes (a b : Nat) (ns : List Node) : List Node :=
  ns.map (substNode a b)

def substVals (a b : Nat) (vs : List Nat) : List Nat :=
  vs.map (substV a b)

/-- Apply a sequence of use-redirections `(old, new)` to a node list and a
value list, in order (the per-output `replaceAllUsesWith` loops). -/
def substAll (prs : List (Nat × Nat)) (ns : List Node) (vs : List Nat) :
    List Node × List Nat :=
  match prs with
  | [] => (ns, vs)
  | (a, b) :: rest => substAll rest (substNodes a b ns) (substVals a b vs)

/-- Fatal aborts of the pass: the `JIT_ASSERT(state[input] != State::Unknown)`
contract check, and the out-of-range / arity aborts (`at()`, `input(i)`,
`output()`). -/
inductive PassErr : Type where
  | assertUnknownInput
  | malformed
deriving DecidableEq, Repr

mutual
/-- All ids (node identities and value ids) occurring in a node. -/
def idsNode : Node → List Nat
  | .mk i _ ins outs bs => i :: ins ++ outs ++ idsBlks bs

def idsBlks : Blks → List Nat
  | .nil => []
  | .cons b bs => idsBlk b ++ idsBlks bs

def idsBlk : Blk → List Nat
  | .mk ns os => idsNodeList ns ++ os

def idsNodeList : NodeList → List Nat
  | .nil => []
  | .cons n ns => idsNode n ++ idsNodeList ns
end

def idsNodes (ns : List Node) : List Nat :=
  ns.flatMap idsNode

/-- Loop-progress weight: processing a `GradOf` takes at most two iterator
steps (the created `prim::Undefined` node, inserted after it, is visited
next); every other node takes one. -/
def Node.weight (n : Node) : Nat :=
  match n.kind with
  | .gradOf => 2
  | _ => 1

def listWeight : List Node → Nat
  | [] => 0
  | n :: ns => n.weight + listWeight ns

/-- The main traversal (source lines 29–104), fuelled so that it is
structurally recursive; `listWeight todo` strictly decreases at every
iteration, so any fuel exceeding it reaches the end of the node list.
Arguments: state map, fresh-id counter (C++ allocates globally unique ids
for new nodes and values), remaining nodes, current graph outputs.
Returns the processed node sequence, the final graph outputs and the final
state map, or the fatal abort. -/
def runNodesF : Nat → SMap → Nat → List Node → List Nat →
    Except PassErr (List Node × List Nat × SMap)
  | 0, _, _, _, _ => .error .malformed
  | _ + 1, s, _, [], outs => .ok ([], outs, s)
  | fuel + 1, s, fr, n :: rest, outs =>
    match n.kind with
    | .gradOf =>
      if n.inputs.all (fun v => decide (stateGet s v = State.Undefined)) then
        -- all inputs undefined: create an undefined node after `n`, redirect
        -- every output to it, destroy `n`; the iterator visits the new node
        -- next, so it is pushed onto the worklist.
        let uNode : Node := .mk fr .undefinedConst [] [fr + 1] .nil
        let ro := substAll (n.outputs.map fun o => (o, fr + 1)) rest outs
        runNodesF fuel s (fr + 2) (uNode :: ro.1) ro.2
      else
        match n.firstBlock with
        | none => .error .malformed
        | some body =>
          if n.inputs.any (fun v => decide (stateGet s v = State.Unknown)) then
            .error .assertUnknownInput
          else if n.outputs.length ≤ body.boutputs.length then
            -- hoist the body's nodes before `n` (the iterator does not visit
            -- them), then redirect each output to the matching block output.
            let hoisted := body.bnodes.toList
            let ro := substAll (n.outputs.zip body.boutputs) rest outs
            match runNodesF fuel s fr ro.1 ro.2 with
            | .ok (ns, os, s') => .ok (hoisted ++ ns, os, s')
            | .error e => .error e
          else .error .malformed
    | .autogradAdd =>
      match n.inputs, n.outputs with
      | a :: b :: _, [o] =>
        if stateGet s a = State.Undefined then
          let ro := substAll [(o, b)] rest outs
          runNodesF fuel s fr ro.1 ro.2
        else if stateGet s b = State.Undefined then
          let ro := substAll [(o, a)] rest outs
          runNodesF fuel s fr ro.1 ro.2
        else if stateGet s a = State.Defined ∧ stateGet s b = State.Defined then
          -- `toVar(a) + toVar(b)` inserted before `n` (not visited by the
          -- iterator), its output marked Defined, uses redirected, `n`
          -- destroyed.
          let addNode : Node := .mk fr .addOp [a, b] [fr + 1] .nil
          let s' := upd s (fr + 1) .Defined
          let ro := substAll [(o, fr + 1)] rest outs
          match runNodesF fuel s' (fr + 2) ro.1 ro.2 with
          | .ok (ns, os, s'') => .ok (addNode :: ns, os, s'')
          | .error e => .error e
        else
          let s' := upd s o .Unknown
          match runNodesF fuel s' fr rest outs with
          | .ok (ns, os, s'') => .ok (n :: ns, os, s'')
          | .error e => .error e
      | _, _ => .error .malformed
    | .undefinedConst =>
      match n.outputs with
      | [o] =>
        match runNodesF fuel (upd s o .Undefined) fr rest outs with
        | .ok (ns, os, s'') => .ok (n :: ns, os, s'')
        | .error e => .error e
      | _ => .error .malformed
    | _ =>
      let s' := n.outputs.foldl (fun m o => upd m o .Unknown) s
      match runNodesF fuel s' fr rest outs with
      | .ok (ns, os, s'') => .ok (n :: ns, os, s'')
      | .error e => .error e

/-- A graph: declared inputs with their static types, top-level node
sequence, declared graph outputs. -/
structure Graph : Type where
  inputs : List (Nat × Ty)
  nodes : List Node
  outputs : List Nat

/-- Initial lattice seeding from the graph inputs' static types
(source lines 17–27). -/
def seedState (t : Ty) : State :=
  if t.isSubUndefined then .Undefined
  else if t.isSubDynamic then .Defined
  else .Unknown

def seedMap (ins : List (Nat × Ty)) : SMap :=
  ins.foldl (fun m p => upd m p.1 (seedState p.2)) SMap.empty

/-- First unused id: larger than every id occurring in the graph. -/
def graphFresh (g : Graph) : Nat :=
  ((g.inputs.map Prod.fst ++ idsNodes g.nodes ++ g.outputs).foldl max 0) + 1

/-- Entry point `specializeUndef(Graph&)`: seed the lattice from the input
types, then run the traversal over the top-level nodes.  The fuel
`listWeight g.nodes + 1` exceeds the iteration count (each iteration strictly
decreases `listWeight`). -/
def specializeUndef (g : Graph) : Except PassErr Graph :=
  match runNodesF (listWeight g.nodes + 1) (seedMap g.inputs) (graphFresh g)
      g.nodes g.outputs with
  | .ok (ns, os, _) => .ok { inputs := g.inputs, nodes := ns, outputs := os }
  | .error e => .error e

/-! ### Observation functions used to state the claims -/

/-- Top-level node identities of a node sequence. -/
def nidsOf (ns : List Node) : List Nat := ns.map Node.nid

mutual
/-- All node identities in a node, nested blocks included. -/
def deepNidsNode : Node → List Nat
  | .mk i _ _ _ bs => i :: deepNidsBlks bs

def deepNidsBlks : Blks → List Nat
  | .nil => []
  | .cons b bs => deepNidsBlk b ++ deepNidsBlks bs

def deepNidsBlk : Blk → List Nat
  | .mk ns _ => deepNidsNodeList ns

def deepNidsNodeList : NodeList → List Nat
  | .nil => []
  | .cons n ns => deepNidsNode n ++ deepNidsNodeList ns
end

def deepNids (ns : List Node) : List Nat := ns.flatMap deepNidsNode

mutual
/-- All use occurrences of values in a node: its inputs and, recursively,
every use inside its nested blocks including their declared block outputs
(a node's own outputs are definitions, not uses). -/
def usesNode : Node → List Nat
  | .mk _ _ ins _ bs => ins ++ usesBlks bs

def usesBlks : Blks → List Nat
  | .nil => []
  | .cons b bs => usesBlk b ++ usesBlks bs

def usesBlk : Blk → List Nat
  | .mk ns os => usesNodeList ns ++ os

def usesNodeList : NodeList → List Nat
  | .nil => []
  | .cons n ns => usesNode n ++ usesNodeList ns
end

def usesList (ns : List Node) : List Nat := ns.flatMap usesNode

/-- Top-level output values of a node sequence (the values the traversal can
write states for). -/
def topOutputs (ns : List Node) : List Nat := ns.flatMap Node.outputs

/-- The nodes of a node's first nested block (empty when it has none). -/
def bodyNodes (n : Node) : List Node :=
  match n.firstBlock with
  | some b => b.bnodes.toList
  | none => []

/-- The builder precondition on gradient graphs: the body of a `GradOf` node
consists of the linear operations of the differentiated graph, so it contains
no further `GradOf` node (`GradOf` blocks "only appear in these graphs" at
the top level, source lines 52–56). -/
def GradBodiesNoGrad (ns : List Node) : Prop :=
  ∀ n ∈ ns, n.kind = .gradOf → ∀ m ∈ bodyNodes n, m.kind ≠ .gradOf

instance (ns : List Node) : Decidable (GradBodiesNoGrad ns) := by
  unfold GradBodiesNoGrad
  infer_instance

/-- Kinds a hoisted body node may have if a second run is to leave it
untouched: anything outside the three recognized kinds. -/
def hoistSafe (k : NKind) : Prop :=
  k ≠ .gradOf ∧ k ≠ .autogradAdd ∧ k ≠ .undefinedConst

instance (k : NKind) : Decidable (hoistSafe k) := by
  unfold hoistSafe
  infer_instance

/-- The strengthened builder precondition under which the pass is
idempotent: `GradOf` bodies consist solely of unrecognized (linear
operation) nodes. -/
def CleanBodies (ns : List Node) : Prop :=
  ∀ n ∈ ns, n.kind = .gradOf → ∀ m ∈ bodyNodes n, hoistSafe m.kind

instance (ns : List Node) : Decidable (CleanBodies ns) := by
  unfold CleanBodies
  infer_instance

/-- The per-node state marks a second run would record, for a node the
second run leaves in place. -/
def markNode (m : SMap) (n : Node) : SMap :=
  match n.kind with
  | .gradOf => m
  | .autogradAdd =>
    match n.outputs with
    | [o] => upd m o .Unknown
    | _ => m
  | .undefinedConst =>
    match n.outputs with
    | [o] => upd m o .Undefined
    | _ => m
  | _ => n.outputs.foldl (fun m o => upd m o .Unknown) m

def marksAfter (m : SMap) (ns : List Node) : SMap := ns.foldl markNode m

/-- A node sequence is `Stable` for initial state `m` when a run of the
traversal seeded with `m` leaves every node in place: no `GradOf` occurs,
and every `AutogradAdd` falls into the leave-in-place branch under the
states the run accumulates. -/
def Stable (m : SMap) : List Node → Prop
  | [] => True
  | n :: rest =>
    match n.kind with
    | .gradOf => False
    | .autogradAdd =>
      match n.inputs, n.outputs with
      | a :: b :: _, [o] =>
        stateGet m a ≠ .Undefined ∧ stateGet m b ≠ .Undefined ∧
        ¬(stateGet m a = .Defined ∧ stateGet m b = .Defined) ∧
        Stable (upd m o .Unknown) rest
      | _, _ => False
    | .undefinedConst =>
      match n.outputs with
      | [o] => Stable (upd m o .Undefined) rest
      | _ => False
    | _ => Stable (n.outputs.foldl (fun m o => upd m o .Unknown) m) rest

/-- Relation between the prospective second-run state `m` and the first
run's state `s`: wherever the second run sees `Undefined` or `Defined`, the
first run saw the same.  (The second run may see `Unknown` where the first
saw more, e.g. on the outputs of created add nodes.) -/
def Rel (m s : SMap) : Prop :=
  ∀ v, (stateGet m v = .Undefined → stateGet s v = .Undefined) ∧
    (stateGet m v = .Defined → stateGet s v = .Defined)

/-- Instrumented copy of `runNodesF`: the extra `Bool` accumulator starts
`true` and is cleared as soon as a `GradOf` or `AutogradAdd` node is
processed while one of its consumed input values has no explicit entry in
the state mapping (`std::unordered_map::count == 0` at that moment). -/
def runNodesChk : Nat → SMap → Nat → List Node → List Nat → Bool →
    Except PassErr (List Node × List Nat × SMap × Bool)
  | 0, _, _, _, _, _ => .error .malformed
  | _ + 1, s, _, [], outs, ok => .ok ([], outs, s, ok)
  | fuel + 1, s, fr, n :: rest, outs, ok =>
    match n.kind with
    | .gradOf =>
      let ok' := ok && n.inputs.all (fun v => (s v).isSome)
      if n.inputs.all (fun v => decide (stateGet s v = State.Undefined)) then
        let uNode : Node := .mk fr .undefinedConst [] [fr + 1] .nil
        let ro := substAll (n.outputs.map fun o => (o, fr + 1)) rest outs
        runNodesChk fuel s (fr + 2) (uNode :: ro.1) ro.2 ok'
      else
        match n.firstBlock with
        | none => .error .malformed
        | some body =>
          if n.inputs.any (fun v => decide (stateGet s v = State.Unknown)) then
            .error .assertUnknownInput
          else if n.outputs.length ≤ body.boutputs.length then
            let hoisted := body.bnodes.toList
            let ro := substAll (n.outputs.zip body.boutputs) rest outs
            match runNodesChk fuel s fr ro.1 ro.2 ok' with
            | .ok (ns, os, s', ok'') => .ok (hoisted ++ ns, os, s', ok'')
            | .error e => .error e
          else .error .malformed
    | .autogradAdd =>
      match n.inputs, n.outputs with
      | a :: b :: _, [o] =>
        let ok' := ok && n.inputs.all (fun v => (s v).isSome)
        if stateGet s a = State.Undefined then
          let ro := substAll [(o, b)] rest outs
          runNodesChk fuel s fr ro.1 ro.2 ok'
        else if stateGet s b = State.Undefined then
          let ro := substAll [(o, a)] rest outs
          runNodesChk fuel s fr ro.1 ro.2 ok'
        else if stateGet s a = State.Defined ∧ stateGet s b = State.Defined
            then
          let addNode : Node := .mk fr .addOp [a, b] [fr + 1] .nil
          let s' := upd s (fr + 1) .Defined
          let ro := substAll [(o, fr + 1)] rest outs
          match runNodesChk fuel s' (fr + 2) ro.1 ro.2 ok' with
          | .ok (ns, os, s'', ok'') => .ok (addNode :: ns, os, s'', ok'')
          | .error e => .error e
        else
          let s' := upd s o .Unknown
          match runNodesChk fuel s' fr rest outs ok' with
          | .ok (ns, os, s'', ok'') => .ok (n :: ns, os, s'', ok'')
          | .error e => .error e
      | _, _ => .error .malformed
    | .undefinedConst =>
      match n.outputs with
      | [o] =>
        match runNodesChk fuel (upd s o .Undefined) fr rest outs ok with
        | .ok (ns, os, s'', ok'') => .ok (n :: ns, os, s'', ok'')
        | .error e => .error e
      | _ => .error .malformed
    | _ =>
      let s' := n.outputs.foldl (fun m o => upd m o .Unknown) s
      match runNodesChk fuel s' fr rest outs ok with
      | .ok (ns, os, s'', ok'') => .ok (n :: ns, os, s'', ok'')
      | .error e => .error e

/-- Extract the instrumentation flag; errors count as vacuously `true`. -/
def chkFlag (r : Except PassErr (List Node × List Nat × SMap × Bool)) :
    Bool :=
  match r with
  | .ok r => r.2.2.2
  | .error _ => true

/-- Concrete graph for the C1 witness: the spec's example scenario — inputs
`v0 : Dynamic`, `v1 : Undefined`; a `GradOf` whose body negates `v0`; an
`AutogradAdd` of `v1` with itself. -/
def c1wg : Graph :=
  { inputs := [(0, .dynamic), (1, .undefinedTensor)]
  , nodes :=
      [ .mk 1 .gradOf [0, 1] [10]
          (.cons (.mk (.cons (.mk 2 (.otherK 5) [0] [2] .nil) .nil) [2]) .nil)
      , .mk 3 .autogradAdd [1, 1] [11] .nil ]
  , outputs := [10, 11] }

def c1wgOut : Graph :=
  { inputs := [(0, .dynamic), (1, .undefinedTensor)]
  , nodes := [.mk 2 (.otherK 5) [0] [2] .nil]
  , outputs := [2, 1] }

/-- Concrete graph for the C5 witness: one input of unconstrained type
(seeded `Unknown`), consumed by a `GradOf` node. -/
def c5wg : Graph :=
  { inputs := [(0, .otherTy)]
  , nodes := [.mk 1 .gradOf [0] [10] (.cons (.mk .nil []) .nil)]
  , outputs := [10] }

/-- Downstream consumer shared by the C4 witness configurations. -/
def c4rest : List Node := [Node.mk 6 (.otherK 9) [12] [13] Blks.nil]

/-- Counterexample graph for C7 as stated: a `GradOf` (mixed inputs) whose
body is an `AutogradAdd` with an `Undefined` operand.  The first run hoists
the `AutogradAdd` without visiting it (the iterator moves past spliced
nodes); the second run then simplifies it, so the second run is not a
no-op. -/
def c7g : Graph :=
  { inputs := [(0, .dynamic), (1, .undefinedTensor)]
  , nodes := [.mk 1 .gradOf [0] [10]
      (.cons (.mk (.cons (.mk 2 .autogradAdd [0, 1] [11] .nil) .nil) [11])
        .nil)]
  , outputs := [10] }

def c7g1 : Graph :=
  { inputs := [(0, .dynamic), (1, .undefinedTensor)]
  , nodes := [.mk 2 .autogradAdd [0, 1] [11] .nil]
  , outputs := [11] }

def c7g2 : Graph :=
  { inputs := [(0, .dynamic), (1, .undefinedTensor)]
  , nodes := []
  , outputs := [0] }

/-- Concrete graph with clean `GradOf` bodies for the C7 witness (the
spec's example scenario). -/
def c7wg : Graph :=
  { inputs := [(0, .dynamic), (1, .undefinedTensor)]
  , nodes :=
      [ .mk 1 .gradOf [0, 1] [10]
          (.cons (.mk (.cons (.mk 2 (.otherK 5) [0] [2] .nil) .nil) [2]) .nil)
      , .mk 3 .autogradAdd [1, 1] [11] .nil ]
  , outputs := [10, 11] }

def c7wg1 : Graph :=
  { inputs := [(0, .dynamic), (1, .undefinedTensor)]
  , nodes := [.mk 2 (.otherK 5) [0] [2] .nil]
  , outputs := [2, 1] }

/-- Counterexample graph for C9: a `GradOf` whose body node's output `v2` is
consumed by a later `AutogradAdd`.  After hoisting, the `AutogradAdd` is
processed while `v2` has no entry in the state map. -/
def c9g : Graph :=
  { inputs := [(0, .dynamic)]
  , nodes :=
      [ .mk 1 .gradOf [0] [10]
          (.cons (.mk (.cons (.mk 2 (.otherK 5) [0] [2] .nil) .nil) [2]) .nil)
      , .mk 3 .autogradAdd [10, 0] [12] .nil ]
  , outputs := [12] }

def c9gOut : Graph :=
  { inputs := [(0, .dynamic)]
  , nodes := [.mk 2 (.otherK 5) [0] [2] .nil, .mk 13 .addOp [2, 0] [14] .nil]
  , outputs := [14] }

/-! ### Structural lemmas about substitution -/

@[simp] theorem substNode_nid (a b : Nat) (n : Node) :
    (substNode a b n).nid = n.nid := by
  cases n; rfl

@[simp] theorem substNode_kind (a b : Nat) (n : Node) :
    (substNode a b n).kind = n.kind := by
  cases n; rfl

@[simp] theorem substNode_outputs (a b : Nat) (n : Node) :
    (substNode a b n).outputs = n.outputs := by
  cases n; rfl

theorem substNode_inputs (a b : Nat) (n : Node) :
    (substNode a b n).inputs = n.inputs.map (substV a b) := by
  cases n; rfl

theorem substNode_firstBlock (a b : Nat) (n : Node) :
    (substNode a b n).firstBlock = n.firstBlock.map (substBlk a b) := by
  cases n with
  | mk i k ins outs bs => cases bs <;> rfl

@[simp] theorem substBlk_bnodes (a b : Nat) (bl : Blk) :
    (substBlk a b bl).bnodes = substNodeList a b bl.bnodes := by
  cases bl; rfl

@[simp] theorem substBlk_boutputs (a b : Nat) (bl : Blk) :
    (substBlk a b bl).boutputs = bl.boutputs.map (substV a b) := by
  cases bl; rfl

theorem substNodeList_toList (a b : Nat) :
    ∀ ns : NodeList, (substNodeList a b ns).toList = ns.toList.map (substNode a b)
  | .nil => rfl
  | .cons n ns => by
    simp [substNodeList, NodeList.toList, substNodeList_toList a b ns]

@[simp] theorem substNodes_nil (a b : Nat) : substNodes a b [] = [] := rfl

@[simp] theorem substNodes_cons (a b : Nat) (n : Node) (ns : List Node) :
    substNodes a b (n :: ns) = substNode a b n :: substNodes a b ns := rfl

@[simp] theorem substVals_nil (a b : Nat) : substVals a b [] = [] := rfl

/-! ### Weight lemmas (loop progress) -/

theorem weight_substNode (a b : Nat) (n : Node) :
    (substNode a b n).weight = n.weight := by
  unfold Node.weight
  rw [substNode_kind]

theorem listWeight_substNodes (a b : Nat) :
    ∀ ns : List Node, listWeight (substNodes a b ns) = listWeight ns
  | [] => rfl
  | n :: ns => by
    have ih := listWeight_substNodes a b ns
    simp only [substNodes, List.map_cons, listWeight, weight_substNode]
    simpa [substNodes] using ih

theorem listWeight_substAll :
    ∀ (prs : List (Nat × Nat)) (ns : List Node) (vs : List Nat),
      listWeight (substAll prs ns vs).1 = listWeight ns
  | [], _, _ => rfl
  | (a, b) :: rest, ns, vs => by
    simp [substAll, listWeight_substAll rest, listWeight_substNodes]

theorem listWeight_append (xs ys : List Node) :
    listWeight (xs ++ ys) = listWeight xs + listWeight ys := by
  induction xs with
  | nil => simp [listWeight]
  | cons n ns ih => simp [listWeight, ih]; omega

/-! ### One-step unfolding lemmas for the traversal -/

theorem run_nil (fuel : Nat) (s : SMap) (fr : Nat) (outs : List Nat) :
    runNodesF (fuel + 1) s fr [] outs = .ok ([], outs, s) := rfl

theorem run_gradOf_allUndef (fuel : Nat) (s : SMap) (fr i : Nat)
    (ins os : List Nat) (bs : Blks) (rest : List Node) (outs : List Nat)
    (hall : ∀ v ∈ ins, stateGet s v = .Undefined) :
    runNodesF (fuel + 1) s fr (Node.mk i .gradOf ins os bs :: rest) outs =
      runNodesF fuel s (fr + 2)
        (Node.mk fr .undefinedConst [] [fr + 1] .nil ::
          (substAll (os.map fun o => (o, fr + 1)) rest outs).1)
        (substAll (os.map fun o => (o, fr + 1)) rest outs).2 := by
  have hb : ((Node.mk i .gradOf ins os bs).inputs.all
      fun v => decide (stateGet s v = State.Undefined)) = true := by
    simp only [Node.inputs, List.all_eq_true, decide_eq_true_eq]
    exact hall
  simp only [runNodesF, Node.kind, hb, if_true, Node.outputs]

theorem run_gradOf_hoist (fuel : Nat) (s : SMap) (fr i : Nat)
    (ins os : List Nat) (body : Blk) (bs : Blks) (rest : List Node)
    (outs : List Nat)
    (hnall : ¬ ∀ v ∈ ins, stateGet s v = .Undefined)
    (hnu : ∀ v ∈ ins, stateGet s v ≠ .Unknown)
    (hlen : os.length ≤ body.boutputs.length) :
    runNodesF (fuel + 1) s fr
        (Node.mk i .gradOf ins os (.cons body bs) :: rest) outs =
      Except.map (fun r => (body.bnodes.toList ++ r.1, r.2))
        (runNodesF fuel s fr
          (substAll (os.zip body.boutputs) rest outs).1
          (substAll (os.zip body.boutputs) rest outs).2) := by
  have hb : ((Node.mk i .gradOf ins os (.cons body bs)).inputs.all
      fun v => decide (stateGet s v = State.Undefined)) = false := by
    cases h : ((Node.mk i (NKind.gradOf) ins os (.cons body bs)).inputs.all
        fun v => decide (stateGet s v = State.Undefined)) with
    | false => rfl
    | true =>
      exact absurd (by simpa [Node.inputs, List.all_eq_true] using h) hnall
  have ha : ((Node.mk i .gradOf ins os (.cons body bs)).inputs.any
      fun v => decide (stateGet s v = State.Unknown)) = false := by
    simp only [Node.inputs, List.any_eq_false, decide_eq_true_eq]
    exact hnu
  simp only [runNodesF, Node.kind, hb, Bool.false_eq_true, if_false,
    Node.firstBlock, ha, Node.outputs, hlen, if_true]
  cases hres : runNodesF fuel s fr
      (substAll (os.zip body.boutputs) rest outs).1
      (substAll (os.zip body.boutputs) rest outs).2 with
  | ok r =>
    obtain ⟨ns, osr, sr⟩ := r
    simp [hres, Except.map]
  | error e => simp [hres, Except.map]

theorem run_gradOf_assertUnknown (fuel : Nat) (s : SMap) (fr i : Nat)
    (ins os : List Nat) (body : Blk) (bs : Blks) (rest : List Node)
    (outs : List Nat)
    (hnall : ¬ ∀ v ∈ ins, stateGet s v = .Undefined)
    (hu : ∃ v ∈ ins, stateGet s v = .Unknown) :
    runNodesF (fuel + 1) s fr
        (Node.mk i .gradOf ins os (.cons body bs) :: rest) outs =
      .error .assertUnknownInput := by
  have hb : ((Node.mk i .gradOf ins os (.cons body bs)).inputs.all
      fun v => decide (stateGet s v = State.Undefined)) = false := by
    cases h : ((Node.mk i (NKind.gradOf) ins os (.cons body bs)).inputs.all
        fun v => decide (stateGet s v = State.Undefined)) with
    | false => rfl
    | true =>
      exact absurd (by simpa [Node.inputs, List.all_eq_true] using h) hnall
  have ha : ((Node.mk i .gradOf ins os (.cons body bs)).inputs.any
      fun v => decide (stateGet s v = State.Unknown)) = true := by
    simp only [Node.inputs, List.any_eq_true, decide_eq_true_eq]
    exact hu
  simp only [runNodesF, Node.kind, hb, Bool.false_eq_true, if_false,
    Node.firstBlock, ha, if_true]

theorem run_gradOf_noBlock (fuel : Nat) (s : SMap) (fr i : Nat)
    (ins os : List Nat) (rest : List Node) (outs : List Nat)
    (hnall : ¬ ∀ v ∈ ins, stateGet s v = .Undefined) :
    runNodesF (fuel + 1) s fr (Node.mk i .gradOf ins os .nil :: rest) outs =
      .error .malformed := by
  have hb : ((Node.mk i .gradOf ins os .nil).inputs.all
      fun v => decide (stateGet s v = State.Undefined)) = false := by
    cases h : ((Node.mk i (NKind.gradOf) ins os .nil).inputs.all
        fun v => decide (stateGet s v = State.Undefined)) with
    | false => rfl
    | true =>
      exact absurd (by simpa [Node.inputs, List.all_eq_true] using h) hnall
  simp only [runNodesF, Node.kind, hb, Bool.false_eq_true, if_false,
    Node.firstBlock]

theorem run_gradOf_lenMismatch (fuel : Nat) (s : SMap) (fr i : Nat)
    (ins os : List Nat) (body : Blk) (bs : Blks) (rest : List Node)
    (outs : List Nat)
    (hnall : ¬ ∀ v ∈ ins, stateGet s v = .Undefined)
    (hnu : ∀ v ∈ ins, stateGet s v ≠ .Unknown)
    (hlen : ¬ os.length ≤ body.boutputs.length) :
    runNodesF (fuel + 1) s fr
        (Node.mk i .gradOf ins os (.cons body bs) :: rest) outs =
      .error .malformed := by
  have hb : ((Node.mk i .gradOf ins os (.cons body bs)).inputs.all
      fun v => decide (stateGet s v = State.Undefined)) = false := by
    cases h : ((Node.mk i (NKind.gradOf) ins os (.cons body bs)).inputs.all
        fun v => decide (stateGet s v = State.Undefined)) with
    | false => rfl
    | true =>
      exact absurd (by simpa [Node.inputs, List.all_eq_true] using h) hnall
  have ha : ((Node.mk i .gradOf ins os (.cons body bs)).inputs.any
      fun v => decide (stateGet s v = State.Unknown)) = false := by
    simp only [Node.inputs, List.any_eq_false, decide_eq_true_eq]
    exact hnu
  simp only [runNodesF, Node.kind, hb, Bool.false_eq_true, if_false,
    Node.firstBlock, ha, Node.outputs, hlen]

theorem run_agadd_aUndef (fuel : Nat) (s : SMap) (fr i : Nat)
    (a b : Nat) (tl : List Nat) (o : Nat) (bs : Blks) (rest : List Node)
    (outs : List Nat)
    (ha : stateGet s a = .Undefined) :
    runNodesF (fuel + 1) s fr
        (Node.mk i .autogradAdd (a :: b :: tl) [o] bs :: rest) outs =
      runNodesF fuel s fr (substNodes o b rest) (substVals o b outs) := by
  simp only [runNodesF, Node.kind, Node.inputs, Node.outputs, ha, if_true,
    substAll]

theorem run_agadd_bUndef (fuel : Nat) (s : SMap) (fr i : Nat)
    (a b : Nat) (tl : List Nat) (o : Nat) (bs : Blks) (rest : List Node)
    (outs : List Nat)
    (ha : stateGet s a ≠ .Undefined) (hb : stateGet s b = .Undefined) :
    runNodesF (fuel + 1) s fr
        (Node.mk i .autogradAdd (a :: b :: tl) [o] bs :: rest) outs =
      runNodesF fuel s fr (substNodes o a rest) (substVals o a outs) := by
  simp only [runNodesF, Node.kind, Node.inputs, Node.outputs, ha, hb,
    if_false, if_true, substAll]

theorem run_agadd_bothDef (fuel : Nat) (s : SMap) (fr i : Nat)
    (a b : Nat) (tl : List Nat) (o : Nat) (bs : Blks) (rest : List Node)
    (outs : List Nat)
    (ha : stateGet s a = .Defined) (hb : stateGet s b = .Defined) :
    runNodesF (fuel + 1) s fr
        (Node.mk i .autogradAdd (a :: b :: tl) [o] bs :: rest) outs =
      Except.map (fun r => (Node.mk fr .addOp [a, b] [fr + 1] .nil :: r.1, r.2))
        (runNodesF fuel (upd s (fr + 1) .Defined) (fr + 2)
          (substNodes o (fr + 1) rest) (substVals o (fr + 1) outs)) := by
  have ha' : stateGet s a ≠ State.Undefined := by rw [ha]; intro h; cases h
  have hb' : stateGet s b ≠ State.Undefined := by rw [hb]; intro h; cases h
  simp only [runNodesF, Node.kind, Node.inputs, Node.outputs, ha', hb',
    if_false, ha, hb, and_self, if_true, substAll]
  cases hres : runNodesF fuel (upd s (fr + 1) .Defined) (fr + 2)
      (substNodes o (fr + 1) rest) (substVals o (fr + 1) outs) with
  | ok r =>
    obtain ⟨ns, osr, sr⟩ := r
    simp [hres, Except.map]
  | error e => simp [hres, Except.map]

theorem run_agadd_leave (fuel : Nat) (s : SMap) (fr i : Nat)
    (a b : Nat) (tl : List Nat) (o : Nat) (bs : Blks) (rest : List Node)
    (outs : List Nat)
    (ha : stateGet s a ≠ .Undefined) (hb : stateGet s b ≠ .Undefined)
    (hd : ¬ (stateGet s a = .Defined ∧ stateGet s b = .Defined)) :
    runNodesF (fuel + 1) s fr
        (Node.mk i .autogradAdd (a :: b :: tl) [o] bs :: rest) outs =
      Except.map
        (fun r => (Node.mk i .autogradAdd (a :: b :: tl) [o] bs :: r.1, r.2))
        (runNodesF fuel (upd s o .Unknown) fr rest outs) := by
  simp only [runNodesF, Node.kind, Node.inputs, Node.outputs, ha, hb, hd,
    if_false]
  cases hres : runNodesF fuel (upd s o .Unknown) fr rest outs with
  | ok r =>
    obtain ⟨ns, osr, sr⟩ := r
    simp [hres, Except.map]
  | error e => simp [hres, Except.map]

theorem run_undefinedConst (fuel : Nat) (s : SMap) (fr i : Nat)
    (ins : List Nat) (o : Nat) (bs : Blks) (rest : List Node)
    (outs : List Nat) :
    runNodesF (fuel + 1) s fr
        (Node.mk i .undefinedConst ins [o] bs :: rest) outs =
      Except.map (fun r => (Node.mk i .undefinedConst ins [o] bs :: r.1, r.2))
        (runNodesF fuel (upd s o .Undefined) fr rest outs) := by
  simp only [runNodesF, Node.kind, Node.outputs]
  cases hres : runNodesF fuel (upd s o .Undefined) fr rest outs with
  | ok r =>
    obtain ⟨ns, osr, sr⟩ := r
    simp [hres, Except.map]
  | error e => simp [hres, Except.map]

theorem run_default (fuel : Nat) (s : SMap) (fr : Nat) (n : Node)
    (rest : List Node) (outs : List Nat)
    (h1 : n.kind ≠ .gradOf) (h2 : n.kind ≠ .autogradAdd)
    (h3 : n.kind ≠ .undefinedConst) :
    runNodesF (fuel + 1) s fr (n :: rest) outs =
      Except.map (fun r => (n :: r.1, r.2))
        (runNodesF fuel (n.outputs.foldl (fun m o => upd m o .Unknown) s) fr
          rest outs) := by
  cases n with
  | mk i k ins os bs =>
    simp only [Node.kind] at h1 h2 h3
    cases k with
    | gradOf => exact absurd rfl h1
    | autogradAdd => exact absurd rfl h2
    | undefinedConst => exact absurd rfl h3
    | addOp =>
      simp only [runNodesF, Node.kind, Node.outputs]
      cases hres : runNodesF fuel
          (os.foldl (fun m o => upd m o .Unknown) s) fr rest outs with
      | ok r =>
        obtain ⟨ns, osr, sr⟩ := r
        simp [hres, Except.map]
      | error e => simp [hres, Except.map]
    | otherK sym =>
      simp only [runNodesF, Node.kind, Node.outputs]
      cases hres : runNodesF fuel
          (os.foldl (fun m o => upd m o .Unknown) s) fr rest outs with
      | ok r =>
        obtain ⟨ns, osr, sr⟩ := r
        simp [hres, Except.map]
      | error e => simp [hres, Except.map]

/-! ### C1: no GradOf node remains in the processed region -/

theorem bodyNodes_substNode (a b : Nat) (n : Node) :
    bodyNodes (substNode a b n) = (bodyNodes n).map (substNode a b) := by
  cases n with
  | mk i k ins outs bs =>
    cases bs with
    | nil => rfl
    | cons bl bs' =>
      simp [bodyNodes, substNode, Node.firstBlock, substBlks,
        substNodeList_toList]

theorem gradBodiesNoGrad_substNodes (a b : Nat) {ns : List Node}
    (h : GradBodiesNoGrad ns) : GradBodiesNoGrad (substNodes a b ns) := by
  intro n' hn' hk m' hm'
  obtain ⟨n, hn, rfl⟩ := List.mem_map.mp hn'
  rw [substNode_kind] at hk
  rw [bodyNodes_substNode] at hm'
  obtain ⟨m, hm, rfl⟩ := List.mem_map.mp hm'
  rw [substNode_kind]
  exact h n hn hk m hm

theorem gradBodiesNoGrad_substAll {prs : List (Nat × Nat)} :
    ∀ {ns : List Node} {vs : List Nat}, GradBodiesNoGrad ns →
      GradBodiesNoGrad (substAll prs ns vs).1 := by
  induction prs with
  | nil => intro ns vs h; exact h
  | cons p rest ih =>
    intro ns vs h
    obtain ⟨a, b⟩ := p
    exact ih (gradBodiesNoGrad_substNodes a b h)

theorem gradBodiesNoGrad_cons {n : Node} {ns : List Node}
    (hn : n.kind = .gradOf → ∀ m ∈ bodyNodes n, m.kind ≠ .gradOf)
    (h : GradBodiesNoGrad ns) : GradBodiesNoGrad (n :: ns) := by
  intro n' hn'
  cases hn' with
  | head => exact hn
  | tail _ hmem => exact h n' hmem

theorem gradBodiesNoGrad_tail {n : Node} {ns : List Node}
    (h : GradBodiesNoGrad (n :: ns)) : GradBodiesNoGrad ns :=
  fun n' hn' => h n' (List.mem_cons_of_mem n hn')

/-- Main induction for C1: a successful traversal of a node list whose
`GradOf` bodies contain no `GradOf` nodes emits no `GradOf` node. -/
theorem run_no_gradOf (fuel : Nat) :
    ∀ (s : SMap) (fr : Nat) (todo : List Node) (outs : List Nat)
      (ns : List Node) (os : List Nat) (s' : SMap),
      GradBodiesNoGrad todo →
      runNodesF fuel s fr todo outs = .ok (ns, os, s') →
      ∀ n ∈ ns, n.kind ≠ .gradOf := by
  induction fuel with
  | zero =>
    intro s fr todo outs ns os s' _ hrun
    simp [runNodesF] at hrun
  | succ fuel ih =>
    intro s fr todo outs ns os s' hclean hrun
    match todo with
    | [] =>
      rw [run_nil] at hrun
      cases hrun
      intro n hn
      cases hn
    | .mk i k nins nouts bs :: rest =>
      have hcleanRest : GradBodiesNoGrad rest := gradBodiesNoGrad_tail hclean
      cases k with
      | gradOf =>
        by_cases hall : ∀ v ∈ nins, stateGet s v = .Undefined
        · rw [run_gradOf_allUndef fuel s fr i nins nouts bs rest outs hall]
            at hrun
          refine ih _ _ _ _ _ _ _ ?_ hrun
          refine gradBodiesNoGrad_cons ?_ (gradBodiesNoGrad_substAll hcleanRest)
          intro hk
          cases hk
        · cases bs with
          | nil =>
            rw [run_gradOf_noBlock fuel s fr i nins nouts rest outs hall]
              at hrun
            cases hrun
          | cons body bs' =>
            by_cases hu : ∃ v ∈ nins, stateGet s v = .Unknown
            · rw [run_gradOf_assertUnknown fuel s fr i nins nouts body bs' rest
                outs hall hu] at hrun
              cases hrun
            · have hnu : ∀ v ∈ nins, stateGet s v ≠ .Unknown := by
                intro v hv hcon
                exact hu ⟨v, hv, hcon⟩
              by_cases hlen : nouts.length ≤ body.boutputs.length
              · rw [run_gradOf_hoist fuel s fr i nins nouts body bs' rest outs
                  hall hnu hlen] at hrun
                cases hrec : runNodesF fuel s fr
                    (substAll (nouts.zip body.boutputs) rest outs).1
                    (substAll (nouts.zip body.boutputs) rest outs).2 with
                | ok r =>
                  obtain ⟨ns1, os1, s1⟩ := r
                  rw [hrec] at hrun
                  simp only [Except.map] at hrun
                  cases hrun
                  intro n hn
                  rcases List.mem_append.mp hn with hn | hn
                  · exact hclean (Node.mk i .gradOf nins nouts
                      (Blks.cons body bs')) (List.mem_cons_self _ _) rfl n hn
                  · exact ih _ _ _ _ _ _ _
                      (gradBodiesNoGrad_substAll hcleanRest) hrec n hn
                | error e =>
                  rw [hrec] at hrun
                  simp only [Except.map] at hrun
                  cases hrun
              · rw [run_gradOf_lenMismatch fuel s fr i nins nouts body bs' rest
                  outs hall hnu hlen] at hrun
                cases hrun
      | autogradAdd =>
        match nins, nouts with
        | [], _ =>
          simp only [runNodesF, Node.kind, Node.inputs, Node.outputs] at hrun
          cases hrun
        | [a], _ =>
          simp only [runNodesF, Node.kind, Node.inputs, Node.outputs] at hrun
          cases hrun
        | a :: b :: tl, [] =>
          simp only [runNodesF, Node.kind, Node.inputs, Node.outputs] at hrun
          cases hrun
        | a :: b :: tl, o1 :: o2 :: osx =>
          simp only [runNodesF, Node.kind, Node.inputs, Node.outputs] at hrun
          cases hrun
        | a :: b :: tl, [o] =>
          by_cases hac : stateGet s a = .Undefined
          · rw [run_agadd_aUndef fuel s fr i a b tl o bs rest outs hac] at hrun
            exact ih _ _ _ _ _ _ _
              (gradBodiesNoGrad_substNodes o b hcleanRest) hrun
          · by_cases hbc : stateGet s b = .Undefined
            · rw [run_agadd_bUndef fuel s fr i a b tl o bs rest outs hac hbc]
                at hrun
              exact ih _ _ _ _ _ _ _
                (gradBodiesNoGrad_substNodes o a hcleanRest) hrun
            · by_cases hdd : stateGet s a = .Defined ∧ stateGet s b = .Defined
              · rw [run_agadd_bothDef fuel s fr i a b tl o bs rest outs hdd.1
                  hdd.2] at hrun
                cases hrec : runNodesF fuel (upd s (fr + 1) .Defined) (fr + 2)
                    (substNodes o (fr + 1) rest)
                    (substVals o (fr + 1) outs) with
                | ok r =>
                  obtain ⟨ns1, os1, s1⟩ := r
                  rw [hrec] at hrun
                  simp only [Except.map] at hrun
                  cases hrun
                  intro n hn
                  cases hn with
                  | head => intro hk; cases hk
                  | tail _ hmem =>
                    exact ih _ _ _ _ _ _ _
                      (gradBodiesNoGrad_substNodes o (fr + 1) hcleanRest)
                      hrec n hmem
                | error e =>
                  rw [hrec] at hrun
                  simp only [Except.map] at hrun
                  cases hrun
              · rw [run_agadd_leave fuel s fr i a b tl o bs rest outs hac hbc
                  hdd] at hrun
                cases hrec : runNodesF fuel (upd s o .Unknown) fr rest outs with
                | ok r =>
                  obtain ⟨ns1, os1, s1⟩ := r
                  rw [hrec] at hrun
                  simp only [Except.map] at hrun
                  cases hrun
                  intro n hn
                  cases hn with
                  | head => intro hk; cases hk
                  | tail _ hmem =>
                    exact ih _ _ _ _ _ _ _ hcleanRest hrec n hmem
                | error e =>
                  rw [hrec] at hrun
                  simp only [Except.map] at hrun
                  cases hrun
      | undefinedConst =>
        match nouts with
        | [] =>
          simp only [runNodesF, Node.kind, Node.outputs] at hrun
          cases hrun
        | o1 :: o2 :: osx =>
          simp only [runNodesF, Node.kind, Node.outputs] at hrun
          cases hrun
        | [o] =>
          rw [run_undefinedConst fuel s fr i nins o bs rest outs] at hrun
          cases hrec : runNodesF fuel (upd s o .Undefined) fr rest outs with
          | ok r =>
            obtain ⟨ns1, os1, s1⟩ := r
            rw [hrec] at hrun
            simp only [Except.map] at hrun
            cases hrun
            intro n hn
            cases hn with
            | head => intro hk; cases hk
            | tail _ hmem => exact ih _ _ _ _ _ _ _ hcleanRest hrec n hmem
          | error e =>
            rw [hrec] at hrun
            simp only [Except.map] at hrun
            cases hrun
      | addOp =>
        rw [run_default fuel s fr (.mk i .addOp nins nouts bs) rest outs
          (by intro h; cases h) (by intro h; cases h) (by intro h; cases h)]
          at hrun
        cases hrec : runNodesF fuel
            ((Node.mk i NKind.addOp nins nouts bs).outputs.foldl
              (fun m o => upd m o .Unknown) s) fr rest outs with
        | ok r =>
          obtain ⟨ns1, os1, s1⟩ := r
          rw [hrec] at hrun
          simp only [Except.map] at hrun
          cases hrun
          intro n hn
          cases hn with
          | head => intro hk; cases hk
          | tail _ hmem => exact ih _ _ _ _ _ _ _ hcleanRest hrec n hmem
        | error e =>
          rw [hrec] at hrun
          simp only [Except.map] at hrun
          cases hrun
      | otherK sym =>
        rw [run_default fuel s fr (.mk i (.otherK sym) nins nouts bs) rest outs
          (by intro h; cases h) (by intro h; cases h) (by intro h; cases h)]
          at hrun
        cases hrec : runNodesF fuel
            ((Node.mk i (NKind.otherK sym) nins nouts bs).outputs.foldl
              (fun m o => upd m o .Unknown) s) fr rest outs with
        | ok r =>
          obtain ⟨ns1, os1, s1⟩ := r
          rw [hrec] at hrun
          simp only [Except.map] at hrun
          cases hrun
          intro n hn
          cases hn with
          | head => intro hk; cases hk
          | tail _ hmem => exact ih _ _ _ _ _ _ _ hcleanRest hrec n hmem
        | error e =>
          rw [hrec] at hrun
          simp only [Except.map] at hrun
          cases hrun

/-- C1: after `specializeUndef` returns successfully on a graph whose
`GradOf` bodies satisfy the builder precondition (a gradient graph's
`GradOf` blocks hold the linear operations, never further `GradOf` nodes),
no `GradOf` node remains anywhere in the processed top-level region —
in particular the nodes spliced into the region from the bodies of
eliminated `GradOf` nodes contain none. -/
theorem c1_no_gradOf_remains (g g' : Graph)
    (hpre : GradBodiesNoGrad g.nodes)
    (hrun : specializeUndef g = .ok g') :
    ∀ n ∈ g'.nodes, n.kind ≠ .gradOf := by
  unfold specializeUndef at hrun
  cases hrec : runNodesF (listWeight g.nodes + 1) (seedMap g.inputs)
      (graphFresh g) g.nodes g.outputs with
  | ok r =>
    obtain ⟨ns, os, s'⟩ := r
    rw [hrec] at hrun
    simp only at hrun
    cases hrun
    exact run_no_gradOf _ _ _ _ _ _ _ _ hpre hrec
  | error e =>
    rw [hrec] at hrun
    cases hrun

theorem c1_no_gradOf_remains_witness :
    GradBodiesNoGrad c1wg.nodes ∧ ∀ n ∈ c1wgOut.nodes, n.kind ≠ .gradOf :=
  ⟨by decide, c1_no_gradOf_remains c1wg c1wgOut (by decide) rfl⟩

/-- C5: when the traversal reaches a `GradOf` node one of whose inputs has
propagated state `Unknown` (hence its inputs are not all `Undefined`), the
pass aborts with the internal-consistency failure
(`JIT_ASSERT(state[input] != State::Unknown)`); and an aborted traversal
makes `specializeUndef` return the error, never a mutated graph. -/
theorem c5_unknown_input_aborts :
    (∀ (fuel : Nat) (s : SMap) (fr i : Nat) (ins os : List Nat) (body : Blk)
      (bs : Blks) (rest : List Node) (outs : List Nat),
      (∃ v ∈ ins, stateGet s v = .Unknown) →
      runNodesF (fuel + 1) s fr
        (Node.mk i .gradOf ins os (.cons body bs) :: rest) outs =
        .error .assertUnknownInput) ∧
    (∀ (g : Graph) (e : PassErr),
      runNodesF (listWeight g.nodes + 1) (seedMap g.inputs) (graphFresh g)
        g.nodes g.outputs = .error e →
      specializeUndef g = .error e) := by
  constructor
  · intro fuel s fr i ins os body bs rest outs hu
    have hnall : ¬ ∀ v ∈ ins, stateGet s v = .Undefined := by
      obtain ⟨v, hv, hvu⟩ := hu
      intro hall
      have hc := hall v hv
      rw [hvu] at hc
      cases hc
    exact run_gradOf_assertUnknown fuel s fr i ins os body bs rest outs
      hnall hu
  · intro g e hrun
    unfold specializeUndef
    rw [hrun]

theorem c5_unknown_input_aborts_witness :
    (∃ v ∈ ([0] : List Nat),
      stateGet (seedMap [(0, Ty.otherTy)]) v = .Unknown) ∧
    runNodesF 3 (seedMap [(0, Ty.otherTy)]) 11
      [Node.mk 1 .gradOf [0] [10] (.cons (.mk .nil []) .nil)] [10] =
      .error .assertUnknownInput ∧
    specializeUndef c5wg = .error .assertUnknownInput := by
  refine ⟨by decide, ?_, ?_⟩
  · exact c5_unknown_input_aborts.1 2 (seedMap [(0, Ty.otherTy)]) 11 1 [0]
      [10] (.mk .nil []) .nil [] [10] (by decide)
  · exact c5_unknown_input_aborts.2 c5wg .assertUnknownInput rfl

/-! ### Shared substitution characterizations (ids and uses) -/

mutual
theorem deepNidsNode_subst (a b : Nat) :
    ∀ n : Node, deepNidsNode (substNode a b n) = deepNidsNode n
  | .mk i k ins outs bs => by
    simp [substNode, deepNidsNode, deepNidsBlks_subst a b bs]

theorem deepNidsBlks_subst (a b : Nat) :
    ∀ bs : Blks, deepNidsBlks (substBlks a b bs) = deepNidsBlks bs
  | .nil => rfl
  | .cons bl bs => by
    simp [substBlks, deepNidsBlks, deepNidsBlk_subst a b bl,
      deepNidsBlks_subst a b bs]

theorem deepNidsBlk_subst (a b : Nat) :
    ∀ bl : Blk, deepNidsBlk (substBlk a b bl) = deepNidsBlk bl
  | .mk ns os => by
    simp [substBlk, deepNidsBlk, deepNidsNodeList_subst a b ns]

theorem deepNidsNodeList_subst (a b : Nat) :
    ∀ ns : NodeList, deepNidsNodeList (substNodeList a b ns) = deepNidsNodeList ns
  | .nil => rfl
  | .cons n ns => by
    simp [substNodeList, deepNidsNodeList, deepNidsNode_subst a b n,
      deepNidsNodeList_subst a b ns]
end

mutual
theorem usesNode_subst (a b : Nat) :
    ∀ n : Node, usesNode (substNode a b n) = (usesNode n).map (substV a b)
  | .mk i k ins outs bs => by
    simp [substNode, usesNode, usesBlks_subst a b bs]

theorem usesBlks_subst (a b : Nat) :
    ∀ bs : Blks, usesBlks (substBlks a b bs) = (usesBlks bs).map (substV a b)
  | .nil => rfl
  | .cons bl bs => by
    simp [substBlks, usesBlks, usesBlk_subst a b bl, usesBlks_subst a b bs]

theorem usesBlk_subst (a b : Nat) :
    ∀ bl : Blk, usesBlk (substBlk a b bl) = (usesBlk bl).map (substV a b)
  | .mk ns os => by
    simp [substBlk, usesBlk, usesNodeList_subst a b ns]

theorem usesNodeList_subst (a b : Nat) :
    ∀ ns : NodeList,
      usesNodeList (substNodeList a b ns) = (usesNodeList ns).map (substV a b)
  | .nil => rfl
  | .cons n ns => by
    simp [substNodeList, usesNodeList, usesNode_subst a b n,
      usesNodeList_subst a b ns]
end

theorem deepNids_substNodes (a b : Nat) (ns : List Node) :
    deepNids (substNodes a b ns) = deepNids ns := by
  induction ns with
  | nil => rfl
  | cons n ns ih =>
    simp only [substNodes, List.map_cons, deepNids, List.flatMap_cons,
      deepNidsNode_subst]
    simp only [substNodes, deepNids] at ih
    rw [ih]

theorem deepNids_substAll :
    ∀ (prs : List (Nat × Nat)) (ns : List Node) (vs : List Nat),
      deepNids (substAll prs ns vs).1 = deepNids ns
  | [], _, _ => rfl
  | (a, b) :: rest, ns, vs => by
    simp [substAll, deepNids_substAll rest, deepNids_substNodes]

theorem usesList_substNodes (a b : Nat) (ns : List Node) :
    usesList (substNodes a b ns) = (usesList ns).map (substV a b) := by
  induction ns with
  | nil => rfl
  | cons n ns ih =>
    simp only [substNodes, List.map_cons, usesList, List.flatMap_cons,
      usesNode_subst, List.map_append]
    simp only [substNodes, usesList] at ih
    rw [ih]

theorem topOutputs_substNodes (a b : Nat) (ns : List Node) :
    topOutputs (substNodes a b ns) = topOutputs ns := by
  induction ns with
  | nil => rfl
  | cons n ns ih =>
    simp only [substNodes, List.map_cons, topOutputs, List.flatMap_cons,
      substNode_outputs]
    simp only [substNodes, topOutputs] at ih
    rw [ih]

theorem topOutputs_substAll :
    ∀ (prs : List (Nat × Nat)) (ns : List Node) (vs : List Nat),
      topOutputs (substAll prs ns vs).1 = topOutputs ns
  | [], _, _ => rfl
  | (a, b) :: rest, ns, vs => by
    simp [substAll, topOutputs_substAll rest, topOutputs_substNodes]

/-- A value distinct from every redirection target and absent from the uses
stays absent after a single redirection. -/
theorem not_mem_usesList_substNodes {v a b : Nat} {ns : List Node}
    (hv : v ∉ usesList ns) (hb : v ≠ b) :
    v ∉ usesList (substNodes a b ns) := by
  rw [usesList_substNodes]
  intro hmem
  obtain ⟨u, hu, huv⟩ := List.mem_map.mp hmem
  unfold substV at huv
  by_cases hua : u = a
  · rw [if_pos hua] at huv
    exact hb huv.symm
  · rw [if_neg hua] at huv
    exact hv (huv ▸ hu)

theorem not_mem_substVals {v a b : Nat} {vs : List Nat}
    (hv : v ∉ vs) (hb : v ≠ b) : v ∉ substVals a b vs := by
  intro hmem
  obtain ⟨u, hu, huv⟩ := List.mem_map.mp hmem
  unfold substV at huv
  by_cases hua : u = a
  · rw [if_pos hua] at huv
    exact hb huv.symm
  · rw [if_neg hua] at huv
    exact hv (huv ▸ hu)

theorem not_mem_substAll {v : Nat} :
    ∀ {prs : List (Nat × Nat)} {ns : List Node} {vs : List Nat},
      v ∉ usesList ns → v ∉ vs → (∀ p ∈ prs, v ≠ p.2) →
      v ∉ usesList (substAll prs ns vs).1 ∧ v ∉ (substAll prs ns vs).2 := by
  intro prs
  induction prs with
  | nil => exact fun h1 h2 _ => ⟨h1, h2⟩
  | cons p rest ih =>
    intro ns vs h1 h2 hp
    obtain ⟨a, b⟩ := p
    have hb : v ≠ b := hp (a, b) (List.mem_cons_self _ _)
    exact ih (not_mem_usesList_substNodes h1 hb) (not_mem_substVals h2 hb)
      (fun q hq => hp q (List.mem_cons_of_mem _ hq))

/-! ### Membership helpers for block contents -/

theorem usesNode_sub_toList {m : Node} :
    ∀ (ns : NodeList), m ∈ ns.toList → ∀ v ∈ usesNode m, v ∈ usesNodeList ns
  | .nil, h => by cases h
  | .cons n ns, hm => by
    intro v hv
    cases hm with
    | head => exact List.mem_append.mpr (Or.inl hv)
    | tail _ hmem =>
      exact List.mem_append.mpr (Or.inr (usesNode_sub_toList ns hmem v hv))

theorem nid_mem_deepNidsNode (n : Node) : n.nid ∈ deepNidsNode n := by
  cases n with
  | mk i k ins outs bs => simp [deepNidsNode, Node.nid]

theorem deepNidsNode_sub_toList {m : Node} :
    ∀ (ns : NodeList), m ∈ ns.toList →
      ∀ v ∈ deepNidsNode m, v ∈ deepNidsNodeList ns
  | .nil, h => by cases h
  | .cons n ns, hm => by
    intro v hv
    cases hm with
    | head => exact List.mem_append.mpr (Or.inl hv)
    | tail _ hmem =>
      exact List.mem_append.mpr (Or.inr (deepNidsNode_sub_toList ns hmem v hv))

theorem deepNids_cons (n : Node) (ns : List Node) :
    deepNids (n :: ns) = deepNidsNode n ++ deepNids ns := by
  simp [deepNids]

theorem usesList_cons (n : Node) (ns : List Node) :
    usesList (n :: ns) = usesNode n ++ usesList ns := by
  simp [usesList]

theorem topOutputs_cons (n : Node) (ns : List Node) :
    topOutputs (n :: ns) = n.outputs ++ topOutputs ns := by
  simp [topOutputs]

/-- Every node the traversal emits either carries an identity already in the
input region (nested blocks included) or a freshly allocated one. -/
theorem run_nids_origin (fuel : Nat) :
    ∀ (s : SMap) (fr : Nat) (todo : List Node) (outs : List Nat)
      (ns : List Node) (os : List Nat) (s' : SMap),
      runNodesF fuel s fr todo outs = .ok (ns, os, s') →
      ∀ n ∈ ns, n.nid ∈ deepNids todo ∨ fr ≤ n.nid := by
  induction fuel with
  | zero =>
    intro s fr todo outs ns os s' hrun
    simp [runNodesF] at hrun
  | succ fuel ih =>
    intro s fr todo outs ns os s' hrun
    match todo with
    | [] =>
      rw [run_nil] at hrun
      cases hrun
      intro n hn
      cases hn
    | .mk i k nins nouts bs :: rest =>
      cases k with
      | gradOf =>
        by_cases hall : ∀ v ∈ nins, stateGet s v = .Undefined
        · rw [run_gradOf_allUndef fuel s fr i nins nouts bs rest outs hall]
            at hrun
          intro n hn
          have hsub : deepNids
              (substAll (nouts.map fun o => (o, fr + 1)) rest outs).1 =
              deepNids rest := deepNids_substAll _ _ _
          rcases ih _ _ _ _ _ _ _ hrun n hn with hmem | hge
          · rw [deepNids_cons, List.mem_append, hsub] at hmem
            rcases hmem with h1 | h2
            · right
              simp [deepNidsNode, deepNidsBlks] at h1
              omega
            · left
              rw [deepNids_cons, List.mem_append]
              exact Or.inr h2
          · right; omega
        · cases bs with
          | nil =>
            rw [run_gradOf_noBlock fuel s fr i nins nouts rest outs hall]
              at hrun
            cases hrun
          | cons body bs' =>
            by_cases hu : ∃ v ∈ nins, stateGet s v = .Unknown
            · rw [run_gradOf_assertUnknown fuel s fr i nins nouts body bs' rest
                outs hall hu] at hrun
              cases hrun
            · have hnu : ∀ v ∈ nins, stateGet s v ≠ .Unknown := by
                intro v hv hcon
                exact hu ⟨v, hv, hcon⟩
              by_cases hlen : nouts.length ≤ body.boutputs.length
              · rw [run_gradOf_hoist fuel s fr i nins nouts body bs' rest outs
                  hall hnu hlen] at hrun
                cases hrec : runNodesF fuel s fr
                    (substAll (nouts.zip body.boutputs) rest outs).1
                    (substAll (nouts.zip body.boutputs) rest outs).2 with
                | ok r =>
                  obtain ⟨ns1, os1, s1⟩ := r
                  rw [hrec] at hrun
                  simp only [Except.map] at hrun
                  cases hrun
                  intro n hn
                  have hsub : deepNids
                      (substAll (nouts.zip body.boutputs) rest outs).1 =
                      deepNids rest := deepNids_substAll _ _ _
                  rcases List.mem_append.mp hn with hn | hn
                  · left
                    rw [deepNids_cons, List.mem_append]
                    refine Or.inl ?_
                    have h1 : n.nid ∈ deepNidsNodeList body.bnodes :=
                      deepNidsNode_sub_toList body.bnodes hn n.nid
                        (nid_mem_deepNidsNode n)
                    cases body with
                    | mk bns bos =>
                      simp [deepNidsNode, deepNidsBlks, deepNidsBlk]
                      right; left
                      simpa [Blk.bnodes] using h1
                  · rcases ih _ _ _ _ _ _ _ hrec n hn with hmem | hge
                    · left
                      rw [hsub] at hmem
                      rw [deepNids_cons, List.mem_append]
                      exact Or.inr hmem
                    · right; exact hge
                | error e =>
                  rw [hrec] at hrun
                  simp only [Except.map] at hrun
                  cases hrun
              · rw [run_gradOf_lenMismatch fuel s fr i nins nouts body bs' rest
                  outs hall hnu hlen] at hrun
                cases hrun
      | autogradAdd =>
        match nins, nouts with
        | [], _ =>
          simp only [runNodesF, Node.kind, Node.inputs, Node.outputs] at hrun
          cases hrun
        | [a], _ =>
          simp only [runNodesF, Node.kind, Node.inputs, Node.outputs] at hrun
          cases hrun
        | a :: b :: tl, [] =>
          simp only [runNodesF, Node.kind, Node.inputs, Node.outputs] at hrun
          cases hrun
        | a :: b :: tl, o1 :: o2 :: osx =>
          simp only [runNodesF, Node.kind, Node.inputs, Node.outputs] at hrun
          cases hrun
        | a :: b :: tl, [o] =>
          by_cases hac : stateGet s a = .Undefined
          · rw [run_agadd_aUndef fuel s fr i a b tl o bs rest outs hac] at hrun
            intro n hn
            rcases ih _ _ _ _ _ _ _ hrun n hn with hmem | hge
            · left
              rw [deepNids_substNodes] at hmem
              rw [deepNids_cons, List.mem_append]
              exact Or.inr hmem
            · right; exact hge
          · by_cases hbc : stateGet s b = .Undefined
            · rw [run_agadd_bUndef fuel s fr i a b tl o bs rest outs hac hbc]
                at hrun
              intro n hn
              rcases ih _ _ _ _ _ _ _ hrun n hn with hmem | hge
              · left
                rw [deepNids_substNodes] at hmem
                rw [deepNids_cons, List.mem_append]
                exact Or.inr hmem
              · right; exact hge
            · by_cases hdd : stateGet s a = .Defined ∧ stateGet s b = .Defined
              · rw [run_agadd_bothDef fuel s fr i a b tl o bs rest outs hdd.1
                  hdd.2] at hrun
                cases hrec : runNodesF fuel (upd s (fr + 1) .Defined) (fr + 2)
                    (substNodes o (fr + 1) rest)
                    (substVals o (fr + 1) outs) with
                | ok r =>
                  obtain ⟨ns1, os1, s1⟩ := r
                  rw [hrec] at hrun
                  simp only [Except.map] at hrun
                  cases hrun
                  intro n hn
                  cases hn with
                  | head => right; simp [Node.nid]
                  | tail _ hmem =>
                    rcases ih _ _ _ _ _ _ _ hrec n hmem with h1 | h1
                    · left
                      rw [deepNids_substNodes] at h1
                      rw [deepNids_cons, List.mem_append]
                      exact Or.inr h1
                    · right; omega
                | error e =>
                  rw [hrec] at hrun
                  simp only [Except.map] at hrun
                  cases hrun
              · rw [run_agadd_leave fuel s fr i a b tl o bs rest outs hac hbc
                  hdd] at hrun
                cases hrec : runNodesF fuel (upd s o .Unknown) fr rest outs with
                | ok r =>
                  obtain ⟨ns1, os1, s1⟩ := r
                  rw [hrec] at hrun
                  simp only [Except.map] at hrun
                  cases hrun
                  intro n hn
                  cases hn with
                  | head =>
                    left
                    rw [deepNids_cons, List.mem_append]
                    exact Or.inl (nid_mem_deepNidsNode _)
                  | tail _ hmem =>
                    rcases ih _ _ _ _ _ _ _ hrec n hmem with h1 | h1
                    · left
                      rw [deepNids_cons, List.mem_append]
                      exact Or.inr h1
                    · right; exact h1
                | error e =>
                  rw [hrec] at hrun
                  simp only [Except.map] at hrun
                  cases hrun
      | undefinedConst =>
        match nouts with
        | [] =>
          simp only [runNodesF, Node.kind, Node.outputs] at hrun
          cases hrun
        | o1 :: o2 :: osx =>
          simp only [runNodesF, Node.kind, Node.outputs] at hrun
          cases hrun
        | [o] =>
          rw [run_undefinedConst fuel s fr i nins o bs rest outs] at hrun
          cases hrec : runNodesF fuel (upd s o .Undefined) fr rest outs with
          | ok r =>
            obtain ⟨ns1, os1, s1⟩ := r
            rw [hrec] at hrun
            simp only [Except.map] at hrun
            cases hrun
            intro n hn
            cases hn with
            | head =>
              left
              rw [deepNids_cons, List.mem_append]
              exact Or.inl (nid_mem_deepNidsNode _)
            | tail _ hmem =>
              rcases ih _ _ _ _ _ _ _ hrec n hmem with h1 | h1
              · left
                rw [deepNids_cons, List.mem_append]
                exact Or.inr h1
              · right; exact h1
          | error e =>
            rw [hrec] at hrun
            simp only [Except.map] at hrun
            cases hrun
      | addOp =>
        rw [run_default fuel s fr (.mk i .addOp nins nouts bs) rest outs
          (by intro h; cases h) (by intro h; cases h) (by intro h; cases h)]
          at hrun
        cases hrec : runNodesF fuel
            ((Node.mk i NKind.addOp nins nouts bs).outputs.foldl
              (fun m o => upd m o .Unknown) s) fr rest outs with
        | ok r =>
          obtain ⟨ns1, os1, s1⟩ := r
          rw [hrec] at hrun
          simp only [Except.map] at hrun
          cases hrun
          intro n hn
          cases hn with
          | head =>
            left
            rw [deepNids_cons, List.mem_append]
            exact Or.inl (nid_mem_deepNidsNode _)
          | tail _ hmem =>
            rcases ih _ _ _ _ _ _ _ hrec n hmem with h1 | h1
            · left
              rw [deepNids_cons, List.mem_append]
              exact Or.inr h1
            · right; exact h1
        | error e =>
          rw [hrec] at hrun
          simp only [Except.map] at hrun
          cases hrun
      | otherK sym =>
        rw [run_default fuel s fr (.mk i (.otherK sym) nins nouts bs) rest outs
          (by intro h; cases h) (by intro h; cases h) (by intro h; cases h)]
          at hrun
        cases hrec : runNodesF fuel
            ((Node.mk i (NKind.otherK sym) nins nouts bs).outputs.foldl
              (fun m o => upd m o .Unknown) s) fr rest outs with
        | ok r =>
          obtain ⟨ns1, os1, s1⟩ := r
          rw [hrec] at hrun
          simp only [Except.map] at hrun
          cases hrun
          intro n hn
          cases hn with
          | head =>
            left
            rw [deepNids_cons, List.mem_append]
            exact Or.inl (nid_mem_deepNidsNode _)
          | tail _ hmem =>
            rcases ih _ _ _ _ _ _ _ hrec n hmem with h1 | h1
            · left
              rw [deepNids_cons, List.mem_append]
              exact Or.inr h1
            · right; exact h1
        | error e =>
          rw [hrec] at hrun
          simp only [Except.map] at hrun
          cases hrun

theorem usesNode_unfold (i : Nat) (k : NKind) (ins outs : List Nat)
    (bs : Blks) :
    usesNode (Node.mk i k ins outs bs) = ins ++ usesBlks bs := rfl

theorem foldl_upd_not_mem {v : Nat} {st : State} :
    ∀ (ws : List Nat) (s : SMap), v ∉ ws →
      (ws.foldl (fun m o => upd m o st) s) v = s v
  | [], _, _ => rfl
  | w :: ws, s, hv => by
    have h1 : v ≠ w := fun h => hv (h ▸ List.mem_cons_self _ _)
    have h2 : v ∉ ws := fun h => hv (List.mem_cons_of_mem _ h)
    rw [List.foldl_cons, foldl_upd_not_mem ws _ h2]
    simp [upd, h1]

/-- A value smaller than the fresh counter that is used nowhere in the
remaining region and is not a graph output never becomes used: the
traversal only redirects uses to existing used values or to fresh ones. -/
theorem run_fresh_value_unused (fuel : Nat) :
    ∀ (s : SMap) (fr : Nat) (todo : List Node) (outs : List Nat)
      (ns : List Node) (os : List Nat) (s' : SMap) (v : Nat),
      runNodesF fuel s fr todo outs = .ok (ns, os, s') →
      v ∉ usesList todo → v ∉ outs → v < fr →
      v ∉ usesList ns ∧ v ∉ os := by
  induction fuel with
  | zero =>
    intro s fr todo outs ns os s' v hrun
    simp [runNodesF] at hrun
  | succ fuel ih =>
    intro s fr todo outs ns os s' v hrun hvu hvo hvf
    match todo with
    | [] =>
      rw [run_nil] at hrun
      cases hrun
      exact ⟨by simp [usesList], hvo⟩
    | .mk i k nins nouts bs :: rest =>
      rw [usesList_cons] at hvu
      have hvn : v ∉ usesNode (Node.mk i k nins nouts bs) :=
        fun h => hvu (List.mem_append.mpr (Or.inl h))
      have hvr : v ∉ usesList rest :=
        fun h => hvu (List.mem_append.mpr (Or.inr h))
      rw [usesNode_unfold] at hvn
      have hvins : v ∉ nins :=
        fun h => hvn (List.mem_append.mpr (Or.inl h))
      have hvbs : v ∉ usesBlks bs :=
        fun h => hvn (List.mem_append.mpr (Or.inr h))
      cases k with
      | gradOf =>
        by_cases hall : ∀ w ∈ nins, stateGet s w = .Undefined
        · rw [run_gradOf_allUndef fuel s fr i nins nouts bs rest outs hall]
            at hrun
          have hro := @not_mem_substAll v
            (nouts.map fun o => (o, fr + 1)) rest outs
            hvr hvo (by
              intro p hp
              obtain ⟨o, ho, rfl⟩ := List.mem_map.mp hp
              omega)
          refine ih _ _ _ _ _ _ _ _ hrun ?_ hro.2 (by omega)
          rw [usesList_cons]
          intro hmem
          rcases List.mem_append.mp hmem with h1 | h1
          · rw [usesNode_unfold] at h1
            simp [usesBlks] at h1
          · exact hro.1 h1
        · cases bs with
          | nil =>
            rw [run_gradOf_noBlock fuel s fr i nins nouts rest outs hall]
              at hrun
            cases hrun
          | cons body bs' =>
            by_cases hu : ∃ w ∈ nins, stateGet s w = .Unknown
            · rw [run_gradOf_assertUnknown fuel s fr i nins nouts body bs' rest
                outs hall hu] at hrun
              cases hrun
            · have hnu : ∀ w ∈ nins, stateGet s w ≠ .Unknown := by
                intro w hw hcon
                exact hu ⟨w, hw, hcon⟩
              by_cases hlen : nouts.length ≤ body.boutputs.length
              · rw [run_gradOf_hoist fuel s fr i nins nouts body bs' rest outs
                  hall hnu hlen] at hrun
                have hvbody : v ∉ usesBlk body := by
                  intro h
                  exact hvbs (by
                    simp only [usesBlks]
                    exact List.mem_append.mpr (Or.inl h))
                have hvbouts : v ∉ body.boutputs := by
                  intro h
                  cases body with
                  | mk bns bos =>
                    exact hvbody (by
                      simp only [usesBlk]
                      exact List.mem_append.mpr (Or.inr (by
                        simpa [Blk.boutputs] using h)))
                have hro := @not_mem_substAll v
                  (nouts.zip body.boutputs) rest outs
                  hvr hvo (by
                    intro p hp
                    intro hvp
                    exact hvbouts (hvp ▸ (List.of_mem_zip hp).2)
                )
                cases hrec : runNodesF fuel s fr
                    (substAll (nouts.zip body.boutputs) rest outs).1
                    (substAll (nouts.zip body.boutputs) rest outs).2 with
                | ok r =>
                  obtain ⟨ns1, os1, s1⟩ := r
                  rw [hrec] at hrun
                  simp only [Except.map] at hrun
                  cases hrun
                  have hih := ih _ _ _ _ _ _ _ _ hrec hro.1 hro.2 hvf
                  constructor
                  · intro hmem
                    rw [usesList] at hmem
                    rcases List.mem_flatMap.mp hmem with ⟨m, hm, hvm⟩
                    rcases List.mem_append.mp hm with hm | hm
                    · refine hvbody ?_
                      cases body with
                      | mk bns bos =>
                        simp only [usesBlk]
                        refine List.mem_append.mpr (Or.inl ?_)
                        exact usesNode_sub_toList bns
                          (by simpa [Blk.bnodes] using hm) v hvm
                    · exact hih.1 (by
                        rw [usesList]
                        exact List.mem_flatMap.mpr ⟨m, hm, hvm⟩)
                  · exact hih.2
                | error e =>
                  rw [hrec] at hrun
                  simp only [Except.map] at hrun
                  cases hrun
              · rw [run_gradOf_lenMismatch fuel s fr i nins nouts body bs' rest
                  outs hall hnu hlen] at hrun
                cases hrun
      | autogradAdd =>
        match nins, nouts, hvins with
        | [], _, _ =>
          simp only [runNodesF, Node.kind, Node.inputs, Node.outputs] at hrun
          cases hrun
        | [a], _, _ =>
          simp only [runNodesF, Node.kind, Node.inputs, Node.outputs] at hrun
          cases hrun
        | a :: b :: tl, [], _ =>
          simp only [runNodesF, Node.kind, Node.inputs, Node.outputs] at hrun
          cases hrun
        | a :: b :: tl, o1 :: o2 :: osx, _ =>
          simp only [runNodesF, Node.kind, Node.inputs, Node.outputs] at hrun
          cases hrun
        | a :: b :: tl, [o], hvins =>
          have hva : v ≠ a := fun h => hvins (h ▸ List.mem_cons_self _ _)
          have hvb : v ≠ b :=
            fun h => hvins (h ▸ List.mem_cons_of_mem _ (List.mem_cons_self _ _))
          by_cases hac : stateGet s a = .Undefined
          · rw [run_agadd_aUndef fuel s fr i a b tl o bs rest outs hac] at hrun
            exact ih _ _ _ _ _ _ _ _ hrun
              (not_mem_usesList_substNodes hvr hvb) (not_mem_substVals hvo hvb)
              hvf
          · by_cases hbc : stateGet s b = .Undefined
            · rw [run_agadd_bUndef fuel s fr i a b tl o bs rest outs hac hbc]
                at hrun
              exact ih _ _ _ _ _ _ _ _ hrun
                (not_mem_usesList_substNodes hvr hva)
                (not_mem_substVals hvo hva) hvf
            · by_cases hdd : stateGet s a = .Defined ∧ stateGet s b = .Defined
              · rw [run_agadd_bothDef fuel s fr i a b tl o bs rest outs hdd.1
                  hdd.2] at hrun
                cases hrec : runNodesF fuel (upd s (fr + 1) .Defined) (fr + 2)
                    (substNodes o (fr + 1) rest)
                    (substVals o (fr + 1) outs) with
                | ok r =>
                  obtain ⟨ns1, os1, s1⟩ := r
                  rw [hrec] at hrun
                  simp only [Except.map] at hrun
                  cases hrun
                  have hih := ih _ _ _ _ _ _ _ _ hrec
                    (not_mem_usesList_substNodes hvr (by omega))
                    (not_mem_substVals hvo (by omega)) (by omega)
                  constructor
                  · rw [usesList_cons]
                    intro hmem
                    rcases List.mem_append.mp hmem with h1 | h1
                    · rw [usesNode_unfold] at h1
                      simp [usesBlks] at h1
                      rcases h1 with h3 | h3
                      · exact hva h3
                      · exact hvb h3
                    · exact hih.1 h1
                  · exact hih.2
                | error e =>
                  rw [hrec] at hrun
                  simp only [Except.map] at hrun
                  cases hrun
              · rw [run_agadd_leave fuel s fr i a b tl o bs rest outs hac hbc
                  hdd] at hrun
                cases hrec : runNodesF fuel (upd s o .Unknown) fr rest outs with
                | ok r =>
                  obtain ⟨ns1, os1, s1⟩ := r
                  rw [hrec] at hrun
                  simp only [Except.map] at hrun
                  cases hrun
                  have hih := ih _ _ _ _ _ _ _ _ hrec hvr hvo hvf
                  constructor
                  · rw [usesList_cons]
                    intro hmem
                    rcases List.mem_append.mp hmem with h1 | h1
                    · exact hvn h1
                    · exact hih.1 h1
                  · exact hih.2
                | error e =>
                  rw [hrec] at hrun
                  simp only [Except.map] at hrun
                  cases hrun
      | undefinedConst =>
        match nouts with
        | [] =>
          simp only [runNodesF, Node.kind, Node.outputs] at hrun
          cases hrun
        | o1 :: o2 :: osx =>
          simp only [runNodesF, Node.kind, Node.outputs] at hrun
          cases hrun
        | [o] =>
          rw [run_undefinedConst fuel s fr i nins o bs rest outs] at hrun
          cases hrec : runNodesF fuel (upd s o .Undefined) fr rest outs with
          | ok r =>
            obtain ⟨ns1, os1, s1⟩ := r
            rw [hrec] at hrun
            simp only [Except.map] at hrun
            cases hrun
            have hih := ih _ _ _ _ _ _ _ _ hrec hvr hvo hvf
            constructor
            · rw [usesList_cons]
              intro hmem
              rcases List.mem_append.mp hmem with h1 | h1
              · exact hvn h1
              · exact hih.1 h1
            · exact hih.2
          | error e =>
            rw [hrec] at hrun
            simp only [Except.map] at hrun
            cases hrun
      | addOp =>
        rw [run_default fuel s fr (.mk i .addOp nins nouts bs) rest outs
          (by intro h; cases h) (by intro h; cases h) (by intro h; cases h)]
          at hrun
        cases hrec : runNodesF fuel
            ((Node.mk i NKind.addOp nins nouts bs).outputs.foldl
              (fun m o => upd m o .Unknown) s) fr rest outs with
        | ok r =>
          obtain ⟨ns1, os1, s1⟩ := r
          rw [hrec] at hrun
          simp only [Except.map] at hrun
          cases hrun
          have hih := ih _ _ _ _ _ _ _ _ hrec hvr hvo hvf
          constructor
          · rw [usesList_cons]
            intro hmem
            rcases List.mem_append.mp hmem with h1 | h1
            · exact hvn h1
            · exact hih.1 h1
          · exact hih.2
        | error e =>
          rw [hrec] at hrun
          simp only [Except.map] at hrun
          cases hrun
      | otherK sym =>
        rw [run_default fuel s fr (.mk i (.otherK sym) nins nouts bs) rest outs
          (by intro h; cases h) (by intro h; cases h) (by intro h; cases h)]
          at hrun
        cases hrec : runNodesF fuel
            ((Node.mk i (NKind.otherK sym) nins nouts bs).outputs.foldl
              (fun m o => upd m o .Unknown) s) fr rest outs with
        | ok r =>
          obtain ⟨ns1, os1, s1⟩ := r
          rw [hrec] at hrun
          simp only [Except.map] at hrun
          cases hrun
          have hih := ih _ _ _ _ _ _ _ _ hrec hvr hvo hvf
          constructor
          · rw [usesList_cons]
            intro hmem
            rcases List.mem_append.mp hmem with h1 | h1
            · exact hvn h1
            · exact hih.1 h1
          · exact hih.2
        | error e =>
          rw [hrec] at hrun
          simp only [Except.map] at hrun
          cases hrun

/-- The traversal writes states only for top-level output values of the
region it processes and for freshly created values: any other value's state
entry is preserved. -/
theorem run_smap_preserved (fuel : Nat) :
    ∀ (s : SMap) (fr : Nat) (todo : List Node) (outs : List Nat)
      (ns : List Node) (os : List Nat) (s' : SMap) (v : Nat),
      runNodesF fuel s fr todo outs = .ok (ns, os, s') →
      v ∉ topOutputs todo → v < fr →
      s' v = s v := by
  induction fuel with
  | zero =>
    intro s fr todo outs ns os s' v hrun
    simp [runNodesF] at hrun
  | succ fuel ih =>
    intro s fr todo outs ns os s' v hrun hvt hvf
    match todo with
    | [] =>
      rw [run_nil] at hrun
      cases hrun
      rfl
    | .mk i k nins nouts bs :: rest =>
      rw [topOutputs_cons] at hvt
      have hvout : v ∉ (Node.mk i k nins nouts bs).outputs :=
        fun h => hvt (List.mem_append.mpr (Or.inl h))
      have hvrest : v ∉ topOutputs rest :=
        fun h => hvt (List.mem_append.mpr (Or.inr h))
      simp only [Node.outputs] at hvout
      cases k with
      | gradOf =>
        by_cases hall : ∀ w ∈ nins, stateGet s w = .Undefined
        · rw [run_gradOf_allUndef fuel s fr i nins nouts bs rest outs hall]
            at hrun
          refine ih _ _ _ _ _ _ _ _ hrun ?_ (by omega)
          rw [topOutputs_cons]
          intro hmem
          rcases List.mem_append.mp hmem with h1 | h1
          · simp [Node.outputs] at h1
            omega
          · rw [topOutputs_substAll] at h1
            exact hvrest h1
        · cases bs with
          | nil =>
            rw [run_gradOf_noBlock fuel s fr i nins nouts rest outs hall]
              at hrun
            cases hrun
          | cons body bs' =>
            by_cases hu : ∃ w ∈ nins, stateGet s w = .Unknown
            · rw [run_gradOf_assertUnknown fuel s fr i nins nouts body bs' rest
                outs hall hu] at hrun
              cases hrun
            · have hnu : ∀ w ∈ nins, stateGet s w ≠ .Unknown := by
                intro w hw hcon
                exact hu ⟨w, hw, hcon⟩
              by_cases hlen : nouts.length ≤ body.boutputs.length
              · rw [run_gradOf_hoist fuel s fr i nins nouts body bs' rest outs
                  hall hnu hlen] at hrun
                cases hrec : runNodesF fuel s fr
                    (substAll (nouts.zip body.boutputs) rest outs).1
                    (substAll (nouts.zip body.boutputs) rest outs).2 with
                | ok r =>
                  obtain ⟨ns1, os1, s1⟩ := r
                  rw [hrec] at hrun
                  simp only [Except.map] at hrun
                  cases hrun
                  refine ih _ _ _ _ _ _ _ _ hrec ?_ hvf
                  rw [topOutputs_substAll]
                  exact hvrest
                | error e =>
                  rw [hrec] at hrun
                  simp only [Except.map] at hrun
                  cases hrun
              · rw [run_gradOf_lenMismatch fuel s fr i nins nouts body bs' rest
                  outs hall hnu hlen] at hrun
                cases hrun
      | autogradAdd =>
        match nins, nouts, hvout with
        | [], _, _ =>
          simp only [runNodesF, Node.kind, Node.inputs, Node.outputs] at hrun
          cases hrun
        | [a], _, _ =>
          simp only [runNodesF, Node.kind, Node.inputs, Node.outputs] at hrun
          cases hrun
        | a :: b :: tl, [], _ =>
          simp only [runNodesF, Node.kind, Node.inputs, Node.outputs] at hrun
          cases hrun
        | a :: b :: tl, o1 :: o2 :: osx, _ =>
          simp only [runNodesF, Node.kind, Node.inputs, Node.outputs] at hrun
          cases hrun
        | a :: b :: tl, [o], hvout =>
          have hvo' : v ≠ o := fun h => hvout (h ▸ List.mem_cons_self _ _)
          by_cases hac : stateGet s a = .Undefined
          · rw [run_agadd_aUndef fuel s fr i a b tl o bs rest outs hac] at hrun
            refine ih _ _ _ _ _ _ _ _ hrun ?_ hvf
            rw [topOutputs_substNodes]
            exact hvrest
          · by_cases hbc : stateGet s b = .Undefined
            · rw [run_agadd_bUndef fuel s fr i a b tl o bs rest outs hac hbc]
                at hrun
              refine ih _ _ _ _ _ _ _ _ hrun ?_ hvf
              rw [topOutputs_substNodes]
              exact hvrest
            · by_cases hdd : stateGet s a = .Defined ∧ stateGet s b = .Defined
              · rw [run_agadd_bothDef fuel s fr i a b tl o bs rest outs hdd.1
                  hdd.2] at hrun
                cases hrec : runNodesF fuel (upd s (fr + 1) .Defined) (fr + 2)
                    (substNodes o (fr + 1) rest)
                    (substVals o (fr + 1) outs) with
                | ok r =>
                  obtain ⟨ns1, os1, s1⟩ := r
                  rw [hrec] at hrun
                  simp only [Except.map] at hrun
                  cases hrun
                  have hih := ih _ _ _ _ _ _ _ _ hrec (by
                    rw [topOutputs_substNodes]
                    exact hvrest) (by omega)
                  rw [hih]
                  simp [upd]
                  intro h
                  omega
                | error e =>
                  rw [hrec] at hrun
                  simp only [Except.map] at hrun
                  cases hrun
              · rw [run_agadd_leave fuel s fr i a b tl o bs rest outs hac hbc
                  hdd] at hrun
                cases hrec : runNodesF fuel (upd s o .Unknown) fr rest outs with
                | ok r =>
                  obtain ⟨ns1, os1, s1⟩ := r
                  rw [hrec] at hrun
                  simp only [Except.map] at hrun
                  cases hrun
                  have hih := ih _ _ _ _ _ _ _ _ hrec hvrest hvf
                  rw [hih]
                  simp [upd, hvo']
                | error e =>
                  rw [hrec] at hrun
                  simp only [Except.map] at hrun
                  cases hrun
      | undefinedConst =>
        match nouts, hvout with
        | [], _ =>
          simp only [runNodesF, Node.kind, Node.outputs] at hrun
          cases hrun
        | o1 :: o2 :: osx, _ =>
          simp only [runNodesF, Node.kind, Node.outputs] at hrun
          cases hrun
        | [o], hvout =>
          have hvo' : v ≠ o := fun h => hvout (h ▸ List.mem_cons_self _ _)
          rw [run_undefinedConst fuel s fr i nins o bs rest outs] at hrun
          cases hrec : runNodesF fuel (upd s o .Undefined) fr rest outs with
          | ok r =>
            obtain ⟨ns1, os1, s1⟩ := r
            rw [hrec] at hrun
            simp only [Except.map] at hrun
            cases hrun
            have hih := ih _ _ _ _ _ _ _ _ hrec hvrest hvf
            rw [hih]
            simp [upd, hvo']
          | error e =>
            rw [hrec] at hrun
            simp only [Except.map] at hrun
            cases hrun
      | addOp =>
        rw [run_default fuel s fr (.mk i .addOp nins nouts bs) rest outs
          (by intro h; cases h) (by intro h; cases h) (by intro h; cases h)]
          at hrun
        cases hrec : runNodesF fuel
            ((Node.mk i NKind.addOp nins nouts bs).outputs.foldl
              (fun m o => upd m o .Unknown) s) fr rest outs with
        | ok r =>
          obtain ⟨ns1, os1, s1⟩ := r
          rw [hrec] at hrun
          simp only [Except.map] at hrun
          cases hrun
          have hih := ih _ _ _ _ _ _ _ _ hrec hvrest hvf
          rw [hih]
          exact foldl_upd_not_mem _ _ hvout
        | error e =>
          rw [hrec] at hrun
          simp only [Except.map] at hrun
          cases hrun
      | otherK sym =>
        rw [run_default fuel s fr (.mk i (.otherK sym) nins nouts bs) rest outs
          (by intro h; cases h) (by intro h; cases h) (by intro h; cases h)]
          at hrun
        cases hrec : runNodesF fuel
            ((Node.mk i (NKind.otherK sym) nins nouts bs).outputs.foldl
              (fun m o => upd m o .Unknown) s) fr rest outs with
        | ok r =>
          obtain ⟨ns1, os1, s1⟩ := r
          rw [hrec] at hrun
          simp only [Except.map] at hrun
          cases hrun
          have hih := ih _ _ _ _ _ _ _ _ hrec hvrest hvf
          rw [hih]
          exact foldl_upd_not_mem _ _ hvout
        | error e =>
          rw [hrec] at hrun
          simp only [Except.map] at hrun
          cases hrun

/-- Redirecting `a` to `b ≠ a` removes every use of `a`. -/
theorem subst_kills_usesList {a b : Nat} (hab : b ≠ a) (ns : List Node) :
    a ∉ usesList (substNodes a b ns) := by
  rw [usesList_substNodes]
  intro hmem
  obtain ⟨u, _, huv⟩ := List.mem_map.mp hmem
  unfold substV at huv
  by_cases hua : u = a
  · rw [if_pos hua] at huv
    exact hab huv
  · rw [if_neg hua] at huv
    exact hua huv

theorem subst_kills_substVals {a b : Nat} (hab : b ≠ a) (vs : List Nat) :
    a ∉ substVals a b vs := by
  intro hmem
  obtain ⟨u, _, huv⟩ := List.mem_map.mp hmem
  unfold substV at huv
  by_cases hua : u = a
  · rw [if_pos hua] at huv
    exact hab huv
  · rw [if_neg hua] at huv
    exact hua huv

/-- After a redirection sequence containing a pair for `o` and whose targets
all differ from `o`, no use of `o` remains. -/
theorem substAll_kills {o : Nat} :
    ∀ {prs : List (Nat × Nat)} {ns : List Node} {vs : List Nat},
      (∃ p ∈ prs, p.1 = o) → (∀ p ∈ prs, p.2 ≠ o) →
      o ∉ usesList (substAll prs ns vs).1 ∧ o ∉ (substAll prs ns vs).2 := by
  intro prs
  induction prs with
  | nil => intro _ _ hex; cases hex.choose_spec.1
  | cons p rest ih =>
    intro ns vs hex htg
    obtain ⟨a, b⟩ := p
    have hbo : b ≠ o := htg (a, b) (List.mem_cons_self _ _)
    simp only [substAll]
    by_cases hao : a = o
    · subst hao
      by_cases hrest : ∃ q ∈ rest, q.1 = a
      · exact ih hrest (fun q hq => htg q (List.mem_cons_of_mem _ hq))
      · exact not_mem_substAll (subst_kills_usesList hbo ns)
          (subst_kills_substVals hbo vs)
          (fun q hq hoq => htg q (List.mem_cons_of_mem _ hq) hoq.symm)
    · rcases hex with ⟨q, hq, hq1⟩
      cases hq with
      | head => exact absurd hq1 hao
      | tail _ hmem =>
        exact ih ⟨q, hmem, hq1⟩ (fun q hq => htg q (List.mem_cons_of_mem _ hq))

/-- C10: a `GradOf` node with zero inputs is handled by the all-undefined
branch (the `std::all_of` over its inputs is vacuously true): a fresh
undefined-value producer is created and becomes the next visited node, every
output of the `GradOf` is redirected to the producer's output, and the node
is deleted — no internal-consistency assertion fires.  Moreover, on a
successful run the deleted node's identity never reappears. -/
theorem c10_empty_gradOf_allUndef :
    (∀ (fuel : Nat) (s : SMap) (fr i : Nat) (os : List Nat) (bs : Blks)
      (rest : List Node) (outs : List Nat),
      runNodesF (fuel + 1) s fr (Node.mk i .gradOf [] os bs :: rest) outs =
        runNodesF fuel s (fr + 2)
          (Node.mk fr .undefinedConst [] [fr + 1] .nil ::
            (substAll (os.map fun o => (o, fr + 1)) rest outs).1)
          (substAll (os.map fun o => (o, fr + 1)) rest outs).2) ∧
    (∀ (fuel : Nat) (s : SMap) (fr i : Nat) (os : List Nat) (bs : Blks)
      (rest : List Node) (outs : List Nat) (ns : List Node) (os' : List Nat)
      (s' : SMap),
      runNodesF (fuel + 1) s fr (Node.mk i .gradOf [] os bs :: rest) outs =
        .ok (ns, os', s') →
      i < fr → i ∉ deepNids rest →
      ∀ n ∈ ns, n.nid ≠ i) := by
  have hstep := fun (fuel : Nat) (s : SMap) (fr i : Nat) (os : List Nat)
      (bs : Blks) (rest : List Node) (outs : List Nat) =>
    run_gradOf_allUndef fuel s fr i [] os bs rest outs (by intro v hv; cases hv)
  refine ⟨hstep, ?_⟩
  intro fuel s fr i os bs rest outs ns os' s' hrun hifr hirest n hn hni
  rw [hstep] at hrun
  rcases run_nids_origin fuel _ _ _ _ _ _ _ hrun n hn with hmem | hge
  · rw [deepNids_cons, List.mem_append, deepNids_substAll] at hmem
    rcases hmem with h1 | h1
    · simp [deepNidsNode, deepNidsBlks] at h1
      omega
    · exact hirest (hni ▸ h1)
  · omega

/-- Concrete instance for the C10 witness: a zero-input `GradOf` whose sole
output is the graph output. -/
theorem c10_empty_gradOf_allUndef_witness :
    (runNodesF 3 SMap.empty 20
        [Node.mk 1 .gradOf [] [10] (.cons (.mk .nil []) .nil)] [10] =
      runNodesF 2 SMap.empty 22
        [Node.mk 20 .undefinedConst [] [21] .nil] [21]) ∧
    (1 < 20 ∧ (1 : Nat) ∉ deepNids ([] : List Node)) ∧
    (∀ n ∈ [Node.mk 20 .undefinedConst [] [21] Blks.nil], n.nid ≠ 1) := by
  refine ⟨?_, ⟨by omega, by simp [deepNids]⟩, ?_⟩
  · exact c10_empty_gradOf_allUndef.1 2 SMap.empty 20 1 [10]
      (.cons (.mk .nil []) .nil) [] [10]
  · exact c10_empty_gradOf_allUndef.2 2 SMap.empty 20 1 [10]
      (.cons (.mk .nil []) .nil) [] [10]
      [Node.mk 20 .undefinedConst [] [21] Blks.nil] [21]
      (upd SMap.empty 21 .Undefined) rfl (by omega) (by simp [deepNids])

/-- C2: a `GradOf` node all of whose inputs have propagated state
`Undefined` is eliminated: a single fresh undefined-value producer is
created (and visited next by the iterator), every use of each former output
is redirected to that one shared producer's output, and the node is
destroyed.  On a successful run with well-formed ids the producer survives
at the node's former position, the node's identity is gone from the
processed region, and no reference to any former output remains. -/
theorem c2_allUndef_gradOf (fuel : Nat) (s : SMap) (fr i : Nat)
    (ins os : List Nat) (bs : Blks) (rest : List Node) (outs : List Nat)
    (hall : ∀ v ∈ ins, stateGet s v = .Undefined) :
    runNodesF (fuel + 1) s fr (Node.mk i .gradOf ins os bs :: rest) outs =
      runNodesF fuel s (fr + 2)
        (Node.mk fr .undefinedConst [] [fr + 1] .nil ::
          (substAll (os.map fun o => (o, fr + 1)) rest outs).1)
        (substAll (os.map fun o => (o, fr + 1)) rest outs).2 ∧
    (∀ (ns : List Node) (os' : List Nat) (s' : SMap),
      runNodesF (fuel + 1) s fr (Node.mk i .gradOf ins os bs :: rest) outs =
        .ok (ns, os', s') →
      i < fr → i ∉ deepNids rest → (∀ o ∈ os, o < fr) →
      (∃ tail, ns = Node.mk fr .undefinedConst [] [fr + 1] .nil :: tail) ∧
      (∀ n ∈ ns, n.nid ≠ i) ∧
      (∀ o ∈ os, o ∉ usesList ns ∧ o ∉ os')) := by
  have hstep :=
    run_gradOf_allUndef fuel s fr i ins os bs rest outs hall
  refine ⟨hstep, ?_⟩
  intro ns os' s' hrun hifr hirest hofr
  rw [hstep] at hrun
  refine ⟨?_, ?_, ?_⟩
  · match fuel, hrun with
    | 0, hrun => simp [runNodesF] at hrun
    | f + 1, hrun =>
      rw [run_undefinedConst f s (fr + 2) fr [] (fr + 1) .nil _ _] at hrun
      cases hrec : runNodesF f (upd s (fr + 1) .Undefined) (fr + 2)
          (substAll (os.map fun o => (o, fr + 1)) rest outs).1
          (substAll (os.map fun o => (o, fr + 1)) rest outs).2 with
      | ok r =>
        obtain ⟨ns1, os1, s1⟩ := r
        rw [hrec] at hrun
        simp only [Except.map] at hrun
        cases hrun
        exact ⟨ns1, rfl⟩
      | error e =>
        rw [hrec] at hrun
        simp only [Except.map] at hrun
        cases hrun
  · intro n hn hni
    rcases run_nids_origin fuel _ _ _ _ _ _ _ hrun n hn with hmem | hge
    · rw [deepNids_cons, List.mem_append, deepNids_substAll] at hmem
      rcases hmem with h1 | h1
      · simp [deepNidsNode, deepNidsBlks] at h1
        omega
      · exact hirest (hni ▸ h1)
    · omega
  · intro o ho
    have hofr' : o < fr := hofr o ho
    have hkill := @substAll_kills o
      (os.map fun o => (o, fr + 1)) rest outs
      ⟨(o, fr + 1), List.mem_map.mpr ⟨o, ho, rfl⟩, rfl⟩
      (by
        intro p hp
        obtain ⟨w, _, rfl⟩ := List.mem_map.mp hp
        simp only
        omega)
    refine run_fresh_value_unused fuel _ _ _ _ _ _ _ _ hrun ?_ hkill.2
      (by omega)
    rw [usesList_cons]
    intro hmem
    rcases List.mem_append.mp hmem with h1 | h1
    · rw [usesNode_unfold] at h1
      simp [usesBlks] at h1
    · exact hkill.1 h1

/-- Concrete instance for the C2 witness: `GradOf` of one seeded-Undefined
input, its output consumed by a later node and returned as a graph output. -/
theorem c2_allUndef_gradOf_witness :
    (∃ tail,
      [Node.mk 20 .undefinedConst [] [21] Blks.nil,
       Node.mk 2 (.otherK 7) [21] [11] Blks.nil] =
        Node.mk 20 .undefinedConst [] [21] Blks.nil :: tail) ∧
    (∀ n ∈ [Node.mk 20 .undefinedConst [] [21] Blks.nil,
            Node.mk 2 (.otherK 7) [21] [11] Blks.nil], n.nid ≠ 1) ∧
    (∀ o ∈ [10],
      o ∉ usesList [Node.mk 20 .undefinedConst [] [21] Blks.nil,
        Node.mk 2 (.otherK 7) [21] [11] Blks.nil] ∧ o ∉ [21]) := by
  exact (c2_allUndef_gradOf 3 (seedMap [(0, Ty.undefinedTensor)]) 20 1
      [0] [10] (.cons (.mk .nil []) .nil)
      [Node.mk 2 (.otherK 7) [10] [11] Blks.nil] [10]
      (by decide)).2
    [Node.mk 20 .undefinedConst [] [21] Blks.nil,
     Node.mk 2 (.otherK 7) [21] [11] Blks.nil] [21] _ rfl
    (by omega) (by decide) (by decide)

/-- C3: a `GradOf` node whose propagated input states are all `Defined` or
`Undefined` but not all `Undefined` is unconditionalized: the nodes of its
nested block are spliced into the parent region immediately before the
node's former position in their original relative order, each former output
is redirected to the corresponding declared block output, and the node is
destroyed (the state map is untouched).  On a successful run with
well-formed ids the spliced body heads the emitted region and the node's
identity is gone. -/
theorem c3_mixed_gradOf_hoist (fuel : Nat) (s : SMap) (fr i : Nat)
    (ins os : List Nat) (body : Blk) (bs : Blks) (rest : List Node)
    (outs : List Nat)
    (hnall : ¬ ∀ v ∈ ins, stateGet s v = .Undefined)
    (hnu : ∀ v ∈ ins, stateGet s v ≠ .Unknown)
    (hlen : os.length = body.boutputs.length) :
    runNodesF (fuel + 1) s fr
        (Node.mk i .gradOf ins os (.cons body bs) :: rest) outs =
      Except.map (fun r => (body.bnodes.toList ++ r.1, r.2))
        (runNodesF fuel s fr (substAll (os.zip body.boutputs) rest outs).1
          (substAll (os.zip body.boutputs) rest outs).2) ∧
    (∀ (ns : List Node) (os' : List Nat) (s' : SMap),
      runNodesF (fuel + 1) s fr
          (Node.mk i .gradOf ins os (.cons body bs) :: rest) outs =
        .ok (ns, os', s') →
      i < fr → i ∉ deepNids rest → i ∉ deepNidsBlk body →
      (∃ tail, ns = body.bnodes.toList ++ tail) ∧
      (∀ n ∈ ns, n.nid ≠ i)) := by
  have hstep := run_gradOf_hoist fuel s fr i ins os body bs rest outs hnall
    hnu (le_of_eq hlen)
  refine ⟨hstep, ?_⟩
  intro ns os' s' hrun hifr hirest hibody
  rw [hstep] at hrun
  cases hrec : runNodesF fuel s fr
      (substAll (os.zip body.boutputs) rest outs).1
      (substAll (os.zip body.boutputs) rest outs).2 with
  | ok r =>
    obtain ⟨ns1, os1, s1⟩ := r
    rw [hrec] at hrun
    simp only [Except.map] at hrun
    cases hrun
    refine ⟨⟨ns1, rfl⟩, ?_⟩
    intro n hn hni
    rcases List.mem_append.mp hn with h1 | h1
    · refine hibody ?_
      cases body with
      | mk bns bos =>
        exact hni ▸ deepNidsNode_sub_toList bns
          (by simpa [Blk.bnodes] using h1) n.nid (nid_mem_deepNidsNode n)
    · rcases run_nids_origin fuel _ _ _ _ _ _ _ hrec n h1 with hmem | hge
      · rw [deepNids_substAll] at hmem
        exact hirest (hni ▸ hmem)
      · omega
  | error e =>
    rw [hrec] at hrun
    simp only [Except.map] at hrun
    cases hrun

/-- Concrete instance for the C3 witness: `GradOf` of one Defined input with
a one-node body, its output consumed downstream. -/
theorem c3_mixed_gradOf_hoist_witness :
    (∃ tail,
      [Node.mk 2 (.otherK 5) [0] [2] Blks.nil,
       Node.mk 3 (.otherK 6) [2] [12] Blks.nil] =
        (Blk.mk (.cons (.mk 2 (.otherK 5) [0] [2] .nil) .nil)
          [2]).bnodes.toList ++ tail) ∧
    (∀ n ∈ [Node.mk 2 (.otherK 5) [0] [2] Blks.nil,
            Node.mk 3 (.otherK 6) [2] [12] Blks.nil], n.nid ≠ 1) := by
  exact (c3_mixed_gradOf_hoist 3 (seedMap [(0, Ty.dynamic)]) 20 1 [0] [10]
      (Blk.mk (.cons (.mk 2 (.otherK 5) [0] [2] .nil) .nil) [2]) .nil
      [Node.mk 3 (.otherK 6) [10] [12] Blks.nil] [10]
      (by decide) (by decide) (by decide)).2
    [Node.mk 2 (.otherK 5) [0] [2] Blks.nil,
     Node.mk 3 (.otherK 6) [2] [12] Blks.nil] [2] _ rfl
    (by omega) (by decide) (by decide)

/-- C4: the `AutogradAdd` rewrite rules.  (1) If input `a` has state
`Undefined`, every use of the output is redirected to `b` and the node is
destroyed — this branch is taken regardless of `b`'s state, so
`AutogradAdd(Undefined, Undefined)` also yields `b` and no fresh
undefined-producer is created (the state map and the fresh counter are
untouched).  (2) Otherwise if `b` is `Undefined`, uses go to `a` and the
node is destroyed.  (3) If both are `Defined`, the node is destroyed and
exactly one new unconditional addition node with inputs `a, b` is inserted
at its position; its output value is marked `Defined` and still is at the
end of a successful run.  (4) In each of these three branches the node's
identity is absent from the emitted region. -/
theorem c4_autogradAdd_rules (fuel : Nat) (s : SMap) (fr i a b : Nat)
    (tl : List Nat) (o : Nat) (bs : Blks) (rest : List Node)
    (outs : List Nat) :
    (stateGet s a = .Undefined →
      runNodesF (fuel + 1) s fr
          (Node.mk i .autogradAdd (a :: b :: tl) [o] bs :: rest) outs =
        runNodesF fuel s fr (substNodes o b rest) (substVals o b outs)) ∧
    (stateGet s a ≠ .Undefined → stateGet s b = .Undefined →
      runNodesF (fuel + 1) s fr
          (Node.mk i .autogradAdd (a :: b :: tl) [o] bs :: rest) outs =
        runNodesF fuel s fr (substNodes o a rest) (substVals o a outs)) ∧
    (stateGet s a = .Defined → stateGet s b = .Defined →
      (runNodesF (fuel + 1) s fr
          (Node.mk i .autogradAdd (a :: b :: tl) [o] bs :: rest) outs =
        Except.map
          (fun r => (Node.mk fr .addOp [a, b] [fr + 1] .nil :: r.1, r.2))
          (runNodesF fuel (upd s (fr + 1) .Defined) (fr + 2)
            (substNodes o (fr + 1) rest) (substVals o (fr + 1) outs))) ∧
      (∀ (ns : List Node) (os' : List Nat) (s' : SMap),
        runNodesF (fuel + 1) s fr
            (Node.mk i .autogradAdd (a :: b :: tl) [o] bs :: rest) outs =
          .ok (ns, os', s') →
        (∀ w ∈ topOutputs rest, w < fr) →
        (∃ tail, ns = Node.mk fr .addOp [a, b] [fr + 1] .nil :: tail) ∧
        s' (fr + 1) = some .Defined)) ∧
    (∀ (ns : List Node) (os' : List Nat) (s' : SMap),
      runNodesF (fuel + 1) s fr
          (Node.mk i .autogradAdd (a :: b :: tl) [o] bs :: rest) outs =
        .ok (ns, os', s') →
      i < fr → i ∉ deepNids rest →
      (stateGet s a = .Undefined ∨ stateGet s b = .Undefined ∨
        (stateGet s a = .Defined ∧ stateGet s b = .Defined)) →
      ∀ n ∈ ns, n.nid ≠ i) := by
  refine ⟨?_, ?_, ?_, ?_⟩
  · intro ha
    exact run_agadd_aUndef fuel s fr i a b tl o bs rest outs ha
  · intro ha hb
    exact run_agadd_bUndef fuel s fr i a b tl o bs rest outs ha hb
  · intro ha hb
    have hstep := run_agadd_bothDef fuel s fr i a b tl o bs rest outs ha hb
    refine ⟨hstep, ?_⟩
    intro ns os' s' hrun htop
    rw [hstep] at hrun
    cases hrec : runNodesF fuel (upd s (fr + 1) .Defined) (fr + 2)
        (substNodes o (fr + 1) rest) (substVals o (fr + 1) outs) with
    | ok r =>
      obtain ⟨ns1, os1, s1⟩ := r
      rw [hrec] at hrun
      simp only [Except.map] at hrun
      cases hrun
      refine ⟨⟨ns1, rfl⟩, ?_⟩
      have hpres := run_smap_preserved fuel _ _ _ _ _ _ _ (fr + 1) hrec
        (by
          rw [topOutputs_substNodes]
          intro hmem
          have := htop _ hmem
          omega) (by omega)
      rw [hpres]
      simp [upd]
    | error e =>
      rw [hrec] at hrun
      simp only [Except.map] at hrun
      cases hrun
  · intro ns os' s' hrun hifr hirest hbr
    by_cases ha : stateGet s a = .Undefined
    · rw [run_agadd_aUndef fuel s fr i a b tl o bs rest outs ha] at hrun
      intro n hn hni
      rcases run_nids_origin fuel _ _ _ _ _ _ _ hrun n hn with hmem | hge
      · rw [deepNids_substNodes] at hmem
        exact hirest (hni ▸ hmem)
      · omega
    · by_cases hb : stateGet s b = .Undefined
      · rw [run_agadd_bUndef fuel s fr i a b tl o bs rest outs ha hb] at hrun
        intro n hn hni
        rcases run_nids_origin fuel _ _ _ _ _ _ _ hrun n hn with hmem | hge
        · rw [deepNids_substNodes] at hmem
          exact hirest (hni ▸ hmem)
        · omega
      · have hdd : stateGet s a = .Defined ∧ stateGet s b = .Defined := by
          rcases hbr with h | h | h
          · exact absurd h ha
          · exact absurd h hb
          · exact h
        rw [run_agadd_bothDef fuel s fr i a b tl o bs rest outs hdd.1 hdd.2]
          at hrun
        cases hrec : runNodesF fuel (upd s (fr + 1) .Defined) (fr + 2)
            (substNodes o (fr + 1) rest) (substVals o (fr + 1) outs) with
        | ok r =>
          obtain ⟨ns1, os1, s1⟩ := r
          rw [hrec] at hrun
          simp only [Except.map] at hrun
          cases hrun
          intro n hn hni
          cases hn with
          | head => simp [Node.nid] at hni; omega
          | tail _ hmem =>
            rcases run_nids_origin fuel _ _ _ _ _ _ _ hrec n hmem with h1 | h1
            · rw [deepNids_substNodes] at h1
              exact hirest (hni ▸ h1)
            · omega
        | error e =>
          rw [hrec] at hrun
          simp only [Except.map] at hrun
          cases hrun

theorem c4_autogradAdd_rules_witness :
    (runNodesF 3 (seedMap [(0, Ty.undefinedTensor), (1, Ty.dynamic)]) 20
        (Node.mk 5 .autogradAdd [0, 1] [12] Blks.nil :: c4rest) [12] =
      runNodesF 2 (seedMap [(0, Ty.undefinedTensor), (1, Ty.dynamic)]) 20
        (substNodes 12 1 c4rest) (substVals 12 1 [12])) ∧
    (runNodesF 3 (seedMap [(0, Ty.dynamic), (1, Ty.undefinedTensor)]) 20
        (Node.mk 5 .autogradAdd [0, 1] [12] Blks.nil :: c4rest) [12] =
      runNodesF 2 (seedMap [(0, Ty.dynamic), (1, Ty.undefinedTensor)]) 20
        (substNodes 12 0 c4rest) (substVals 12 0 [12])) ∧
    ((∃ tail, [Node.mk 20 .addOp [0, 1] [21] Blks.nil,
               Node.mk 6 (.otherK 9) [21] [13] Blks.nil] =
        Node.mk 20 .addOp [0, 1] [21] Blks.nil :: tail) ∧
      (upd (upd (seedMap [(0, Ty.dynamic), (1, Ty.dynamic)]) 21 .Defined)
        13 .Unknown) 21 = some State.Defined) ∧
    (∀ n ∈ [Node.mk 6 (.otherK 9) [1] [13] Blks.nil], n.nid ≠ 5) := by
  refine ⟨?_, ?_, ?_, ?_⟩
  · exact (c4_autogradAdd_rules 2
      (seedMap [(0, Ty.undefinedTensor), (1, Ty.dynamic)]) 20 5 0 1 [] 12
      Blks.nil c4rest [12]).1 (by decide)
  · exact (c4_autogradAdd_rules 2
      (seedMap [(0, Ty.dynamic), (1, Ty.undefinedTensor)]) 20 5 0 1 [] 12
      Blks.nil c4rest [12]).2.1 (by decide) (by decide)
  · exact ((c4_autogradAdd_rules 2
      (seedMap [(0, Ty.dynamic), (1, Ty.dynamic)]) 20 5 0 1 [] 12
      Blks.nil c4rest [12]).2.2.1 (by decide) (by decide)).2
      [Node.mk 20 .addOp [0, 1] [21] Blks.nil,
       Node.mk 6 (.otherK 9) [21] [13] Blks.nil] [21] _ rfl (by decide)
  · exact (c4_autogradAdd_rules 2
      (seedMap [(0, Ty.undefinedTensor), (1, Ty.dynamic)]) 20 5 0 1 [] 12
      Blks.nil c4rest [12]).2.2.2
      [Node.mk 6 (.otherK 9) [1] [13] Blks.nil] [1] _ rfl (by omega)
      (by decide) (Or.inl (by decide))

theorem foldl_upd_mem {st : State} :
    ∀ (ws : List Nat) (s : SMap) {v : Nat}, v ∈ ws →
      (ws.foldl (fun m o => upd m o st) s) v = some st
  | [], _, _, h => by cases h
  | w :: ws, s, v, h => by
    by_cases hv : v ∈ ws
    · rw [List.foldl_cons]
      exact foldl_upd_mem ws _ hv
    · have hvw : v = w := by
        cases h with
        | head => rfl
        | tail _ hmem => exact absurd hmem hv
      rw [List.foldl_cons, foldl_upd_not_mem ws _ hv]
      simp [upd, hvw]

/-- C6: the conservative fallback.  (i) An `AutogradAdd` neither of whose
operands is `Undefined`, with at least one operand `Unknown`, is left in
place unchanged and its output is marked `Unknown` (and still is at the end
of a successful run).  (ii) A node of any kind other than the three
recognized ones is left in place unchanged and every one of its outputs is
marked `Unknown`. -/
theorem c6_conservative_fallback (fuel : Nat) (s : SMap) (fr : Nat)
    (rest : List Node) (outs : List Nat) :
    (∀ (i a b : Nat) (tl : List Nat) (o : Nat) (bs : Blks),
      stateGet s a ≠ .Undefined → stateGet s b ≠ .Undefined →
      (stateGet s a = .Unknown ∨ stateGet s b = .Unknown) →
      (runNodesF (fuel + 1) s fr
          (Node.mk i .autogradAdd (a :: b :: tl) [o] bs :: rest) outs =
        Except.map
          (fun r =>
            (Node.mk i .autogradAdd (a :: b :: tl) [o] bs :: r.1, r.2))
          (runNodesF fuel (upd s o .Unknown) fr rest outs)) ∧
      (∀ (ns : List Node) (os' : List Nat) (s' : SMap),
        runNodesF (fuel + 1) s fr
            (Node.mk i .autogradAdd (a :: b :: tl) [o] bs :: rest) outs =
          .ok (ns, os', s') →
        o ∉ topOutputs rest → o < fr →
        (∃ tail,
          ns = Node.mk i .autogradAdd (a :: b :: tl) [o] bs :: tail) ∧
        s' o = some .Unknown)) ∧
    (∀ n : Node,
      n.kind ≠ .gradOf → n.kind ≠ .autogradAdd → n.kind ≠ .undefinedConst →
      (runNodesF (fuel + 1) s fr (n :: rest) outs =
        Except.map (fun r => (n :: r.1, r.2))
          (runNodesF fuel
            (n.outputs.foldl (fun m o => upd m o .Unknown) s) fr rest
            outs)) ∧
      (∀ (ns : List Node) (os' : List Nat) (s' : SMap),
        runNodesF (fuel + 1) s fr (n :: rest) outs = .ok (ns, os', s') →
        (∀ w ∈ n.outputs, w ∉ topOutputs rest ∧ w < fr) →
        (∃ tail, ns = n :: tail) ∧
        ∀ w ∈ n.outputs, s' w = some .Unknown)) := by
  constructor
  · intro i a b tl o bs ha hb hunk
    have hd : ¬ (stateGet s a = .Defined ∧ stateGet s b = .Defined) := by
      intro hdd
      rcases hunk with h | h
      · rw [hdd.1] at h; cases h
      · rw [hdd.2] at h; cases h
    have hstep := run_agadd_leave fuel s fr i a b tl o bs rest outs ha hb hd
    refine ⟨hstep, ?_⟩
    intro ns os' s' hrun hno hofr
    rw [hstep] at hrun
    cases hrec : runNodesF fuel (upd s o .Unknown) fr rest outs with
    | ok r =>
      obtain ⟨ns1, os1, s1⟩ := r
      rw [hrec] at hrun
      simp only [Except.map] at hrun
      cases hrun
      refine ⟨⟨ns1, rfl⟩, ?_⟩
      have hpres := run_smap_preserved fuel _ _ _ _ _ _ _ o hrec hno hofr
      rw [hpres]
      simp [upd]
    | error e =>
      rw [hrec] at hrun
      simp only [Except.map] at hrun
      cases hrun
  · intro n h1 h2 h3
    have hstep := run_default fuel s fr n rest outs h1 h2 h3
    refine ⟨hstep, ?_⟩
    intro ns os' s' hrun hws
    rw [hstep] at hrun
    cases hrec : runNodesF fuel
        (n.outputs.foldl (fun m o => upd m o .Unknown) s) fr rest outs with
    | ok r =>
      obtain ⟨ns1, os1, s1⟩ := r
      rw [hrec] at hrun
      simp only [Except.map] at hrun
      cases hrun
      refine ⟨⟨ns1, rfl⟩, ?_⟩
      intro w hw
      have hpres := run_smap_preserved fuel _ _ _ _ _ _ _ w hrec
        (hws w hw).1 (hws w hw).2
      rw [hpres]
      exact foldl_upd_mem _ _ hw
    | error e =>
      rw [hrec] at hrun
      simp only [Except.map] at hrun
      cases hrun

theorem c6_conservative_fallback_witness :
    ((∃ tail, [Node.mk 5 .autogradAdd [0, 1] [12] Blks.nil] =
        Node.mk 5 .autogradAdd [0, 1] [12] Blks.nil :: tail) ∧
      (upd (seedMap [(0, Ty.otherTy), (1, Ty.dynamic)]) 12 .Unknown) 12 =
        some State.Unknown) ∧
    ((∃ tail, [Node.mk 7 (.otherK 3) [0] [14, 15] Blks.nil] =
        Node.mk 7 (.otherK 3) [0] [14, 15] Blks.nil :: tail) ∧
      ∀ w ∈ [14, 15],
        ([14, 15].foldl (fun m o => upd m o .Unknown) SMap.empty) w =
          some State.Unknown) := by
  constructor
  · exact ((c6_conservative_fallback 1
      (seedMap [(0, Ty.otherTy), (1, Ty.dynamic)]) 20 [] [12]).1 5 0 1 [] 12
      Blks.nil (by decide) (by decide) (Or.inl (by decide))).2
      [Node.mk 5 .autogradAdd [0, 1] [12] Blks.nil] [12] _ rfl
      (by simp [topOutputs]) (by omega)
  · exact ((c6_conservative_fallback 1 SMap.empty 20 [] []).2
      (Node.mk 7 (.otherK 3) [0] [14, 15] Blks.nil)
      (by intro h; cases h) (by intro h; cases h) (by intro h; cases h)).2
      [Node.mk 7 (.otherK 3) [0] [14, 15] Blks.nil] [] _ rfl
      (by
        intro w hw
        refine ⟨by simp [topOutputs], ?_⟩
        simp only [Node.outputs, List.mem_cons, List.not_mem_nil,
          or_false] at hw
        rcases hw with rfl | rfl <;> omega)

theorem seed_foldl_not_mem :
    ∀ (ins : List (Nat × Ty)) (m : SMap) (v : Nat),
      v ∉ ins.map Prod.fst →
      (ins.foldl (fun m p => upd m p.1 (seedState p.2)) m) v = m v
  | [], _, _, _ => rfl
  | (w, u) :: ins, m, v, hv => by
    have h1 : v ≠ w := by
      intro h
      exact hv (by simp [h])
    have h2 : v ∉ ins.map Prod.fst := by
      intro h
      exact hv (by simp [h])
    rw [List.foldl_cons, seed_foldl_not_mem ins _ v h2]
    simp [upd, h1]

theorem seedMap_lookup :
    ∀ (ins : List (Nat × Ty)) (m : SMap) (v : Nat) (t : Ty),
      (v, t) ∈ ins → (ins.map Prod.fst).Nodup →
      (ins.foldl (fun m p => upd m p.1 (seedState p.2)) m) v =
        some (seedState t)
  | [], _, _, _, h, _ => by cases h
  | (w, u) :: ins, m, v, t, h, hnd => by
    rw [List.foldl_cons]
    rw [List.map_cons, List.nodup_cons] at hnd
    rcases List.mem_cons.mp h with heq | hmem
    · injection heq with hw hu
      subst hw
      subst hu
      rw [seed_foldl_not_mem ins _ v hnd.1]
      simp [upd]
    · exact seedMap_lookup ins _ v t hmem hnd.2

/-- C8: lattice seeding.  For a graph input of type `t` the seeded state is
`Undefined` when `t` is a subtype of the undefined-tensor type, else
`Defined` when `t` is a subtype of the fully generic dynamic type, else
`Unknown`; with distinct input ids each input is seeded accordingly; and the
traversal consults the input types only through the seed map — two graphs
with the same input ids, the same seed map, the same nodes and the same
declared outputs are processed identically. -/
theorem c8_seeding :
    (∀ t : Ty,
      (t.isSubUndefined = true → seedState t = .Undefined) ∧
      (t.isSubUndefined = false → t.isSubDynamic = true →
        seedState t = .Defined) ∧
      (t.isSubUndefined = false → t.isSubDynamic = false →
        seedState t = .Unknown)) ∧
    (∀ (ins : List (Nat × Ty)) (v : Nat) (t : Ty),
      (v, t) ∈ ins → (ins.map Prod.fst).Nodup →
      seedMap ins v = some (seedState t)) ∧
    (∀ g1 g2 : Graph,
      g1.inputs.map Prod.fst = g2.inputs.map Prod.fst →
      seedMap g1.inputs = seedMap g2.inputs →
      g1.nodes = g2.nodes → g1.outputs = g2.outputs →
      runNodesF (listWeight g1.nodes + 1) (seedMap g1.inputs) (graphFresh g1)
        g1.nodes g1.outputs =
      runNodesF (listWeight g2.nodes + 1) (seedMap g2.inputs) (graphFresh g2)
        g2.nodes g2.outputs) := by
  refine ⟨?_, ?_, ?_⟩
  · intro t
    cases t <;> simp [Ty.isSubUndefined, Ty.isSubDynamic, seedState]
  · intro ins v t hmem hnd
    exact seedMap_lookup ins SMap.empty v t hmem hnd
  · intro g1 g2 hids hseed hnodes houts
    have hfresh : graphFresh g1 = graphFresh g2 := by
      unfold graphFresh
      rw [hids, hnodes, houts]
    rw [hseed, hnodes, houts, hfresh]

theorem c8_seeding_witness :
    (Ty.isSubUndefined .undefinedTensor = true →
      seedState .undefinedTensor = .Undefined) ∧
    seedMap [(0, Ty.dynamic), (1, Ty.undefinedTensor)] 1 =
      some (seedState Ty.undefinedTensor) ∧
    runNodesF (listWeight [Node.mk 3 (.otherK 4) [0] [7] Blks.nil] + 1)
        (seedMap [(0, Ty.dynamic)]) (graphFresh
          { inputs := [(0, Ty.dynamic)]
          , nodes := [Node.mk 3 (.otherK 4) [0] [7] Blks.nil]
          , outputs := [7] })
        [Node.mk 3 (.otherK 4) [0] [7] Blks.nil] [7] =
      runNodesF (listWeight [Node.mk 3 (.otherK 4) [0] [7] Blks.nil] + 1)
        (seedMap [(0, Ty.dynamic)]) (graphFresh
          { inputs := [(0, Ty.dynamic)]
          , nodes := [Node.mk 3 (.otherK 4) [0] [7] Blks.nil]
          , outputs := [7] })
        [Node.mk 3 (.otherK 4) [0] [7] Blks.nil] [7] := by
  refine ⟨(c8_seeding.1 Ty.undefinedTensor).1, ?_, ?_⟩
  · exact c8_seeding.2.1 [(0, Ty.dynamic), (1, Ty.undefinedTensor)] 1
      Ty.undefinedTensor (by decide) (by decide)
  · exact c8_seeding.2.2
      { inputs := [(0, Ty.dynamic)]
      , nodes := [Node.mk 3 (.otherK 4) [0] [7] Blks.nil]
      , outputs := [7] }
      { inputs := [(0, Ty.dynamic)]
      , nodes := [Node.mk 3 (.otherK 4) [0] [7] Blks.nil]
      , outputs := [7] } rfl rfl rfl rfl

/-! ### C7: idempotence -/

theorem cleanBodies_substNodes (a b : Nat) {ns : List Node}
    (h : CleanBodies ns) : CleanBodies (substNodes a b ns) := by
  intro n' hn' hk m' hm'
  obtain ⟨n, hn, rfl⟩ := List.mem_map.mp hn'
  rw [substNode_kind] at hk
  rw [bodyNodes_substNode] at hm'
  obtain ⟨m, hm, rfl⟩ := List.mem_map.mp hm'
  rw [substNode_kind]
  exact h n hn hk m hm

theorem cleanBodies_substAll {prs : List (Nat × Nat)} :
    ∀ {ns : List Node} {vs : List Nat}, CleanBodies ns →
      CleanBodies (substAll prs ns vs).1 := by
  induction prs with
  | nil => intro ns vs h; exact h
  | cons p rest ih =>
    intro ns vs h
    obtain ⟨a, b⟩ := p
    exact ih (cleanBodies_substNodes a b h)

theorem cleanBodies_cons {n : Node} {ns : List Node}
    (hn : n.kind = .gradOf → ∀ m ∈ bodyNodes n, hoistSafe m.kind)
    (h : CleanBodies ns) : CleanBodies (n :: ns) := by
  intro n' hn'
  cases hn' with
  | head => exact hn
  | tail _ hmem => exact h n' hmem

theorem cleanBodies_tail {n : Node} {ns : List Node}
    (h : CleanBodies (n :: ns)) : CleanBodies ns :=
  fun n' hn' => h n' (List.mem_cons_of_mem n hn')

/-- A `Stable` node sequence is a fixed point of the traversal: every node
is re-emitted unchanged and the declared outputs are untouched. -/
theorem stable_run_id :
    ∀ (ns : List Node) (m : SMap) (fuel fr : Nat) (outs : List Nat),
      Stable m ns → listWeight ns < fuel →
      ∃ sf, runNodesF fuel m fr ns outs = .ok (ns, outs, sf)
  | [], m, fuel, fr, outs, _, hfuel => by
    match fuel, hfuel with
    | f + 1, _ => exact ⟨m, run_nil f m fr outs⟩
  | .mk i k nins nouts bs :: rest, m, fuel, fr, outs, hst, hfuel => by
    match fuel, hfuel with
    | f + 1, hfuel =>
      cases k with
      | gradOf => exact absurd hst (by simp [Stable, Node.kind])
      | autogradAdd =>
        match nins, nouts, hst with
        | a :: b :: tl, [o], hst =>
          obtain ⟨h1, h2, h3, h4⟩ := hst
          obtain ⟨sf, hsf⟩ := stable_run_id rest (upd m o .Unknown) f fr outs
            h4 (by
              simp only [listWeight, Node.weight, Node.kind] at hfuel
              omega)
          refine ⟨sf, ?_⟩
          rw [run_agadd_leave f m fr i a b tl o bs rest outs h1 h2 h3, hsf]
          rfl
      | undefinedConst =>
        match nouts, hst with
        | [o], hst =>
          obtain ⟨sf, hsf⟩ := stable_run_id rest (upd m o .Undefined) f fr outs
            hst (by
              simp only [listWeight, Node.weight, Node.kind] at hfuel
              omega)
          refine ⟨sf, ?_⟩
          rw [run_undefinedConst f m fr i nins o bs rest outs, hsf]
          rfl
      | addOp =>
        obtain ⟨sf, hsf⟩ := stable_run_id rest
          (nouts.foldl (fun m o => upd m o .Unknown) m) f fr outs hst (by
            simp only [listWeight, Node.weight, Node.kind] at hfuel
            omega)
        refine ⟨sf, ?_⟩
        rw [run_default f m fr (.mk i .addOp nins nouts bs) rest outs
          (by intro h; cases h) (by intro h; cases h) (by intro h; cases h)]
        rw [show (Node.mk i NKind.addOp nins nouts bs).outputs = nouts from
          rfl, hsf]
        rfl
      | otherK sym =>
        obtain ⟨sf, hsf⟩ := stable_run_id rest
          (nouts.foldl (fun m o => upd m o .Unknown) m) f fr outs hst (by
            simp only [listWeight, Node.weight, Node.kind] at hfuel
            omega)
        refine ⟨sf, ?_⟩
        rw [run_default f m fr (.mk i (.otherK sym) nins nouts bs) rest outs
          (by intro h; cases h) (by intro h; cases h) (by intro h; cases h)]
        rw [show (Node.mk i (NKind.otherK sym) nins nouts bs).outputs = nouts
          from rfl, hsf]
        rfl

theorem rel_refl (m : SMap) : Rel m m := fun _ => ⟨id, id⟩

theorem stateGet_upd (m : SMap) (o : Nat) (st : State) (v : Nat) :
    stateGet (upd m o st) v = if v = o then st else stateGet m v := by
  unfold stateGet upd
  by_cases hv : v = o <;> simp [hv]

theorem stateGet_foldl_upd (ws : List Nat) (m : SMap) (st : State) (v : Nat) :
    stateGet (ws.foldl (fun m o => upd m o st) m) v =
      if v ∈ ws then st else stateGet m v := by
  by_cases hv : v ∈ ws
  · rw [if_pos hv]
    unfold stateGet
    rw [foldl_upd_mem ws m hv]
    rfl
  · rw [if_neg hv]
    unfold stateGet
    rw [foldl_upd_not_mem ws m hv]

theorem rel_upd_unknown_any {m s : SMap} (h : Rel m s) (o : Nat)
    (st : State) : Rel (upd m o .Unknown) (upd s o st) := by
  intro v
  constructor <;> intro hc <;> rw [stateGet_upd] at hc ⊢ <;>
    by_cases hv : v = o <;> simp [hv] at hc ⊢
  · exact (h v).1 hc
  · exact (h v).2 hc

theorem rel_upd_same {m s : SMap} (h : Rel m s) (o : Nat) (st : State) :
    Rel (upd m o st) (upd s o st) := by
  intro v
  constructor <;> intro hc <;> rw [stateGet_upd] at hc ⊢ <;>
    by_cases hv : v = o <;> simp [hv] at hc ⊢
  · exact hc
  · exact (h v).1 hc
  · exact hc
  · exact (h v).2 hc

theorem rel_foldl_unknowns {m s : SMap} (h : Rel m s) (ws : List Nat) :
    Rel (ws.foldl (fun m o => upd m o .Unknown) m)
      (ws.foldl (fun m o => upd m o .Unknown) s) := by
  intro v
  constructor <;> intro hc <;> rw [stateGet_foldl_upd] at hc ⊢ <;>
    by_cases hv : v ∈ ws <;> simp [hv] at hc ⊢
  · exact (h v).1 hc
  · exact (h v).2 hc

theorem rel_foldl_unknown_left {m s : SMap} (h : Rel m s) (ws : List Nat) :
    Rel (ws.foldl (fun m o => upd m o .Unknown) m) s := by
  intro v
  constructor <;> intro hc <;> rw [stateGet_foldl_upd] at hc <;>
    by_cases hv : v ∈ ws <;> simp [hv] at hc
  · exact (h v).1 hc
  · exact (h v).2 hc

theorem markNode_default {n : Node} (hs : hoistSafe n.kind) (m : SMap) :
    markNode m n = n.outputs.foldl (fun m o => upd m o .Unknown) m := by
  obtain ⟨h1, h2, h3⟩ := hs
  cases n with
  | mk i k ins outs bs =>
    simp only [Node.kind] at h1 h2 h3
    cases k with
    | gradOf => exact absurd rfl h1
    | autogradAdd => exact absurd rfl h2
    | undefinedConst => exact absurd rfl h3
    | addOp => rfl
    | otherK sym => rfl

theorem rel_marksAfter_default {s : SMap} :
    ∀ (xs : List Node) (m : SMap), (∀ x ∈ xs, hoistSafe x.kind) →
      Rel m s → Rel (marksAfter m xs) s
  | [], m, _, h => h
  | x :: xs, m, hsafe, h => by
    have hx := hsafe x (List.mem_cons_self _ _)
    have hstep : marksAfter m (x :: xs) = marksAfter (markNode m x) xs := rfl
    rw [hstep, markNode_default hx]
    exact rel_marksAfter_default xs _
      (fun y hy => hsafe y (List.mem_cons_of_mem _ hy))
      (rel_foldl_unknown_left h _)

theorem stable_append_default :
    ∀ (xs : List Node) (m : SMap) (ys : List Node),
      (∀ x ∈ xs, hoistSafe x.kind) → Stable (marksAfter m xs) ys →
      Stable m (xs ++ ys)
  | [], _, _, _, h => h
  | x :: xs, m, ys, hsafe, h => by
    have hx := hsafe x (List.mem_cons_self _ _)
    obtain ⟨h1, h2, h3⟩ := hx
    cases x with
    | mk i k ins outs bs =>
      simp only [Node.kind] at h1 h2 h3
      have htail : Stable (marksAfter (markNode m (Node.mk i k ins outs bs))
          xs) ys := h
      have hrec := fun hmark => stable_append_default xs
        (markNode m (Node.mk i k ins outs bs)) ys
        (fun y hy => hsafe y (List.mem_cons_of_mem _ hy)) hmark
      cases k with
      | gradOf => exact absurd rfl h1
      | autogradAdd => exact absurd rfl h2
      | undefinedConst => exact absurd rfl h3
      | addOp => exact hrec htail
      | otherK sym => exact hrec htail

/-- Main induction for C7: under the strengthened builder precondition, the
emitted region of a successful run is `Stable` for any prospective re-run
state `m` related to the run's state by `Rel`. -/
theorem run_stable (fuel : Nat) :
    ∀ (s m : SMap) (fr : Nat) (todo : List Node) (outs : List Nat)
      (ns : List Node) (os : List Nat) (s' : SMap),
      runNodesF fuel s fr todo outs = .ok (ns, os, s') →
      Rel m s → CleanBodies todo →
      Stable m ns := by
  induction fuel with
  | zero =>
    intro s m fr todo outs ns os s' hrun
    simp [runNodesF] at hrun
  | succ fuel ih =>
    intro s m fr todo outs ns os s' hrun hrel hclean
    match todo with
    | [] =>
      rw [run_nil] at hrun
      cases hrun
      trivial
    | .mk i k nins nouts bs :: rest =>
      have hcleanRest : CleanBodies rest := cleanBodies_tail hclean
      cases k with
      | gradOf =>
        by_cases hall : ∀ v ∈ nins, stateGet s v = .Undefined
        · rw [run_gradOf_allUndef fuel s fr i nins nouts bs rest outs hall]
            at hrun
          refine ih _ _ _ _ _ _ _ _ hrun hrel ?_
          refine cleanBodies_cons ?_ (cleanBodies_substAll hcleanRest)
          intro hk
          cases hk
        · cases bs with
          | nil =>
            rw [run_gradOf_noBlock fuel s fr i nins nouts rest outs hall]
              at hrun
            cases hrun
          | cons body bs' =>
            by_cases hu : ∃ v ∈ nins, stateGet s v = .Unknown
            · rw [run_gradOf_assertUnknown fuel s fr i nins nouts body bs' rest
                outs hall hu] at hrun
              cases hrun
            · have hnu : ∀ v ∈ nins, stateGet s v ≠ .Unknown := by
                intro v hv hcon
                exact hu ⟨v, hv, hcon⟩
              by_cases hlen : nouts.length ≤ body.boutputs.length
              · rw [run_gradOf_hoist fuel s fr i nins nouts body bs' rest outs
                  hall hnu hlen] at hrun
                cases hrec : runNodesF fuel s fr
                    (substAll (nouts.zip body.boutputs) rest outs).1
                    (substAll (nouts.zip body.boutputs) rest outs).2 with
                | ok r =>
                  obtain ⟨ns1, os1, s1⟩ := r
                  rw [hrec] at hrun
                  simp only [Except.map] at hrun
                  cases hrun
                  have hsafe : ∀ x ∈ body.bnodes.toList, hoistSafe x.kind :=
                    hclean (Node.mk i .gradOf nins nouts
                      (Blks.cons body bs')) (List.mem_cons_self _ _) rfl
                  refine stable_append_default _ m _ hsafe ?_
                  exact ih _ _ _ _ _ _ _ _ hrec
                    (rel_marksAfter_default _ m hsafe hrel)
                    (cleanBodies_substAll hcleanRest)
                | error e =>
                  rw [hrec] at hrun
                  simp only [Except.map] at hrun
                  cases hrun
              · rw [run_gradOf_lenMismatch fuel s fr i nins nouts body bs' rest
                  outs hall hnu hlen] at hrun
                cases hrun
      | autogradAdd =>
        match nins, nouts with
        | [], _ =>
          simp only [runNodesF, Node.kind, Node.inputs, Node.outputs] at hrun
          cases hrun
        | [a], _ =>
          simp only [runNodesF, Node.kind, Node.inputs, Node.outputs] at hrun
          cases hrun
        | a :: b :: tl, [] =>
          simp only [runNodesF, Node.kind, Node.inputs, Node.outputs] at hrun
          cases hrun
        | a :: b :: tl, o1 :: o2 :: osx =>
          simp only [runNodesF, Node.kind, Node.inputs, Node.outputs] at hrun
          cases hrun
        | a :: b :: tl, [o] =>
          by_cases hac : stateGet s a = .Undefined
          · rw [run_agadd_aUndef fuel s fr i a b tl o bs rest outs hac] at hrun
            exact ih _ _ _ _ _ _ _ _ hrun hrel
              (cleanBodies_substNodes o b hcleanRest)
          · by_cases hbc : stateGet s b = .Undefined
            · rw [run_agadd_bUndef fuel s fr i a b tl o bs rest outs hac hbc]
                at hrun
              exact ih _ _ _ _ _ _ _ _ hrun hrel
                (cleanBodies_substNodes o a hcleanRest)
            · by_cases hdd : stateGet s a = .Defined ∧ stateGet s b = .Defined
              · rw [run_agadd_bothDef fuel s fr i a b tl o bs rest outs hdd.1
                  hdd.2] at hrun
                cases hrec : runNodesF fuel (upd s (fr + 1) .Defined) (fr + 2)
                    (substNodes o (fr + 1) rest)
                    (substVals o (fr + 1) outs) with
                | ok r =>
                  obtain ⟨ns1, os1, s1⟩ := r
                  rw [hrec] at hrun
                  simp only [Except.map] at hrun
                  cases hrun
                  show Stable (List.foldl (fun m o => upd m o State.Unknown)
                    m [fr + 1]) ns1
                  exact ih _ _ _ _ _ _ _ _ hrec
                    (rel_upd_unknown_any hrel (fr + 1) .Defined)
                    (cleanBodies_substNodes o (fr + 1) hcleanRest)
                | error e =>
                  rw [hrec] at hrun
                  simp only [Except.map] at hrun
                  cases hrun
              · rw [run_agadd_leave fuel s fr i a b tl o bs rest outs hac hbc
                  hdd] at hrun
                cases hrec : runNodesF fuel (upd s o .Unknown) fr rest outs with
                | ok r =>
                  obtain ⟨ns1, os1, s1⟩ := r
                  rw [hrec] at hrun
                  simp only [Except.map] at hrun
                  cases hrun
                  refine ⟨?_, ?_, ?_, ?_⟩
                  · intro hc
                    exact hac ((hrel a).1 hc)
                  · intro hc
                    exact hbc ((hrel b).1 hc)
                  · intro hc
                    exact hdd ⟨(hrel a).2 hc.1, (hrel b).2 hc.2⟩
                  · exact ih _ _ _ _ _ _ _ _ hrec
                      (rel_upd_unknown_any hrel o .Unknown) hcleanRest
                | error e =>
                  rw [hrec] at hrun
                  simp only [Except.map] at hrun
                  cases hrun
      | undefinedConst =>
        match nouts with
        | [] =>
          simp only [runNodesF, Node.kind, Node.outputs] at hrun
          cases hrun
        | o1 :: o2 :: osx =>
          simp only [runNodesF, Node.kind, Node.outputs] at hrun
          cases hrun
        | [o] =>
          rw [run_undefinedConst fuel s fr i nins o bs rest outs] at hrun
          cases hrec : runNodesF fuel (upd s o .Undefined) fr rest outs with
          | ok r =>
            obtain ⟨ns1, os1, s1⟩ := r
            rw [hrec] at hrun
            simp only [Except.map] at hrun
            cases hrun
            show Stable (upd m o State.Undefined) ns1
            exact ih _ _ _ _ _ _ _ _ hrec (rel_upd_same hrel o .Undefined)
              hcleanRest
          | error e =>
            rw [hrec] at hrun
            simp only [Except.map] at hrun
            cases hrun
      | addOp =>
        rw [run_default fuel s fr (.mk i .addOp nins nouts bs) rest outs
          (by intro h; cases h) (by intro h; cases h) (by intro h; cases h)]
          at hrun
        cases hrec : runNodesF fuel
            ((Node.mk i NKind.addOp nins nouts bs).outputs.foldl
              (fun m o => upd m o .Unknown) s) fr rest outs with
        | ok r =>
          obtain ⟨ns1, os1, s1⟩ := r
          rw [hrec] at hrun
          simp only [Except.map] at hrun
          cases hrun
          show Stable (List.foldl (fun m o => upd m o State.Unknown) m nouts)
            ns1
          exact ih _ _ _ _ _ _ _ _ hrec (rel_foldl_unknowns hrel nouts)
            hcleanRest
        | error e =>
          rw [hrec] at hrun
          simp only [Except.map] at hrun
          cases hrun
      | otherK sym =>
        rw [run_default fuel s fr (.mk i (.otherK sym) nins nouts bs) rest outs
          (by intro h; cases h) (by intro h; cases h) (by intro h; cases h)]
          at hrun
        cases hrec : runNodesF fuel
            ((Node.mk i (NKind.otherK sym) nins nouts bs).outputs.foldl
              (fun m o => upd m o .Unknown) s) fr rest outs with
        | ok r =>
          obtain ⟨ns1, os1, s1⟩ := r
          rw [hrec] at hrun
          simp only [Except.map] at hrun
          cases hrun
          show Stable (List.foldl (fun m o => upd m o State.Unknown) m nouts)
            ns1
          exact ih _ _ _ _ _ _ _ _ hrec (rel_foldl_unknowns hrel nouts)
            hcleanRest
        | error e =>
          rw [hrec] at hrun
          simp only [Except.map] at hrun
          cases hrun

theorem specializeUndef_ok {g : Graph} {ns : List Node} {os : List Nat}
    {sf : SMap}
    (h : runNodesF (listWeight g.nodes + 1) (seedMap g.inputs) (graphFresh g)
      g.nodes g.outputs = .ok (ns, os, sf)) :
    specializeUndef g =
      .ok { inputs := g.inputs, nodes := ns, outputs := os } := by
  unfold specializeUndef
  rw [h]

/-- C7 (counterexample): the pass is not idempotent as stated.  On `c7g`
(which satisfies the stated preconditions — every `GradOf` input resolves to
Defined or Undefined, and the run succeeds) the first run returns `c7g1`
and the second run mutates it further into `c7g2`. -/
theorem c7_idempotence_cex :
    specializeUndef c7g = .ok c7g1 ∧ specializeUndef c7g1 = .ok c7g2 ∧
      c7g2 ≠ c7g1 := by
  refine ⟨rfl, rfl, ?_⟩
  intro h
  have houts := congrArg Graph.outputs h
  simp [c7g1, c7g2] at houts

/-- C7 (amended): the pass is idempotent on graphs whose `GradOf` bodies
consist solely of nodes outside the three recognized kinds (so a hoisted
node is left untouched by any re-run).  A second invocation on the result
of a successful run performs no mutation. -/
theorem c7_idempotent_on_clean_bodies (g g' : Graph)
    (hclean : CleanBodies g.nodes)
    (hrun : specializeUndef g = .ok g') :
    specializeUndef g' = .ok g' := by
  unfold specializeUndef at hrun
  cases hrec : runNodesF (listWeight g.nodes + 1) (seedMap g.inputs)
      (graphFresh g) g.nodes g.outputs with
  | ok r =>
    obtain ⟨ns, os, s'⟩ := r
    rw [hrec] at hrun
    simp only at hrun
    cases hrun
    have hstable : Stable (seedMap g.inputs) ns :=
      run_stable _ _ _ _ _ _ _ _ _ hrec (rel_refl _) hclean
    obtain ⟨sf, hsf⟩ := stable_run_id ns (seedMap g.inputs)
      (listWeight ns + 1)
      (graphFresh { inputs := g.inputs, nodes := ns, outputs := os }) os
      hstable (by omega)
    exact specializeUndef_ok
      (g := { inputs := g.inputs, nodes := ns, outputs := os }) hsf
  | error e =>
    rw [hrec] at hrun
    cases hrun

theorem c7_idempotent_on_clean_bodies_witness :
    CleanBodies c7wg.nodes ∧ specializeUndef c7wg1 = .ok c7wg1 :=
  ⟨by decide, c7_idempotent_on_clean_bodies c7wg c7wg1 (by decide) rfl⟩

/-! ### C9: explicit-entry invariant -/

/-- Forgetting the instrumentation flag recovers the pass exactly. -/
theorem runNodesChk_proj (fuel : Nat) :
    ∀ (s : SMap) (fr : Nat) (todo : List Node) (outs : List Nat) (ok : Bool),
      Except.map (fun r => (r.1, r.2.1, r.2.2.1))
        (runNodesChk fuel s fr todo outs ok) =
      runNodesF fuel s fr todo outs := by
  induction fuel with
  | zero =>
    intro s fr todo outs ok
    rfl
  | succ fuel ih =>
    intro s fr todo outs ok
    match todo with
    | [] => rfl
    | .mk i k nins nouts bs :: rest =>
      cases k with
      | gradOf =>
        simp only [runNodesChk, runNodesF, Node.kind, Node.inputs,
          Node.outputs, Node.firstBlock]
        by_cases hall : (nins.all
            fun v => decide (stateGet s v = State.Undefined)) = true
        · simp only [hall, if_true]
          exact ih _ _ _ _ _
        · simp only [Bool.not_eq_true] at hall
          simp only [hall, Bool.false_eq_true, if_false]
          cases bs with
          | nil => rfl
          | cons body bs' =>
            by_cases hu : (nins.any
                fun v => decide (stateGet s v = State.Unknown)) = true
            · simp only [hu, if_true]
              rfl
            · simp only [Bool.not_eq_true] at hu
              simp only [hu, Bool.false_eq_true, if_false]
              by_cases hlen : nouts.length ≤ body.boutputs.length
              · simp only [hlen, if_true]
                have := ih s fr
                  (substAll (nouts.zip body.boutputs) rest outs).1
                  (substAll (nouts.zip body.boutputs) rest outs).2
                  (ok && nins.all fun v => (s v).isSome)
                cases hres : runNodesChk fuel s fr
                    (substAll (nouts.zip body.boutputs) rest outs).1
                    (substAll (nouts.zip body.boutputs) rest outs).2
                    (ok && nins.all fun v => (s v).isSome) with
                | ok r =>
                  obtain ⟨ns1, os1, s1, ok1⟩ := r
                  rw [hres] at this
                  simp only [Except.map] at this
                  rw [← this]
                  simp [hres, Except.map]
                | error e =>
                  rw [hres] at this
                  simp only [Except.map] at this
                  rw [← this]
                  simp [hres, Except.map]
              · simp only [hlen, if_false]
                rfl
      | autogradAdd =>
        match nins, nouts with
        | [], _ => rfl
        | [a], _ => rfl
        | a :: b :: tl, [] => rfl
        | a :: b :: tl, o1 :: o2 :: osx => rfl
        | a :: b :: tl, [o] =>
          simp only [runNodesChk, runNodesF, Node.kind, Node.inputs,
            Node.outputs]
          by_cases hac : stateGet s a = State.Undefined
          · simp only [hac, if_true]
            exact ih _ _ _ _ _
          · simp only [hac, if_false]
            by_cases hbc : stateGet s b = State.Undefined
            · simp only [hbc, if_true]
              exact ih _ _ _ _ _
            · simp only [hbc, if_false]
              by_cases hdd : stateGet s a = State.Defined ∧
                  stateGet s b = State.Defined
              · simp only [hdd, if_true]
                have := ih (upd s (fr + 1) .Defined) (fr + 2)
                  (substAll [(o, fr + 1)] rest outs).1
                  (substAll [(o, fr + 1)] rest outs).2
                  (ok && (a :: b :: tl).all fun v => (s v).isSome)
                cases hres : runNodesChk fuel (upd s (fr + 1) .Defined)
                    (fr + 2) (substAll [(o, fr + 1)] rest outs).1
                    (substAll [(o, fr + 1)] rest outs).2
                    (ok && (a :: b :: tl).all fun v => (s v).isSome) with
                | ok r =>
                  obtain ⟨ns1, os1, s1, ok1⟩ := r
                  rw [hres] at this
                  simp only [Except.map] at this
                  rw [← this]
                  simp [hres, Except.map]
                | error e =>
                  rw [hres] at this
                  simp only [Except.map] at this
                  rw [← this]
                  simp [hres, Except.map]
              · simp only [hdd, if_false]
                have := ih (upd s o .Unknown) fr rest outs
                  (ok && (a :: b :: tl).all fun v => (s v).isSome)
                cases hres : runNodesChk fuel (upd s o .Unknown) fr rest outs
                    (ok && (a :: b :: tl).all fun v => (s v).isSome) with
                | ok r =>
                  obtain ⟨ns1, os1, s1, ok1⟩ := r
                  rw [hres] at this
                  simp only [Except.map] at this
                  rw [← this]
                  simp [hres, Except.map]
                | error e =>
                  rw [hres] at this
                  simp only [Except.map] at this
                  rw [← this]
                  simp [hres, Except.map]
      | undefinedConst =>
        match nouts with
        | [] => rfl
        | o1 :: o2 :: osx => rfl
        | [o] =>
          simp only [runNodesChk, runNodesF, Node.kind, Node.outputs]
          have := ih (upd s o .Undefined) fr rest outs ok
          cases hres : runNodesChk fuel (upd s o .Undefined) fr rest outs
              ok with
          | ok r =>
            obtain ⟨ns1, os1, s1, ok1⟩ := r
            rw [hres] at this
            simp only [Except.map] at this
            rw [← this]
            simp [hres, Except.map]
          | error e =>
            rw [hres] at this
            simp only [Except.map] at this
            rw [← this]
            simp [hres, Except.map]
      | addOp =>
        simp only [runNodesChk, runNodesF, Node.kind, Node.outputs]
        have := ih (nouts.foldl (fun m o => upd m o .Unknown) s) fr rest outs
          ok
        cases hres : runNodesChk fuel
            (nouts.foldl (fun m o => upd m o .Unknown) s) fr rest outs ok with
        | ok r =>
          obtain ⟨ns1, os1, s1, ok1⟩ := r
          rw [hres] at this
          simp only [Except.map] at this
          rw [← this]
          simp [hres, Except.map]
        | error e =>
          rw [hres] at this
          simp only [Except.map] at this
          rw [← this]
          simp [hres, Except.map]
      | otherK sym =>
        simp only [runNodesChk, runNodesF, Node.kind, Node.outputs]
        have := ih (nouts.foldl (fun m o => upd m o .Unknown) s) fr rest outs
          ok
        cases hres : runNodesChk fuel
            (nouts.foldl (fun m o => upd m o .Unknown) s) fr rest outs ok with
        | ok r =>
          obtain ⟨ns1, os1, s1, ok1⟩ := r
          rw [hres] at this
          simp only [Except.map] at this
          rw [← this]
          simp [hres, Except.map]
        | error e =>
          rw [hres] at this
          simp only [Except.map] at this
          rw [← this]
          simp [hres, Except.map]

/-- C9 (counterexample): the invariant fails on `c9g` — the pass completes
normally, yet the instrumented traversal records a recognized node (the
`AutogradAdd`, whose input has become the hoisted node's output `v2`)
consumed a value with no explicit entry in the state mapping. -/
theorem c9_missing_entry_cex :
    specializeUndef c9g = .ok c9gOut ∧
    chkFlag (runNodesChk (listWeight c9g.nodes + 1) (seedMap c9g.inputs)
      (graphFresh c9g) c9g.nodes c9g.outputs true) = false :=
  ⟨rfl, rfl⟩

/-- C9 (amended): not every consumed value has an explicit entry.  A value
with no entry is read as `Defined` (the value-initialized default of
`operator[]`); the hoisting step passes the state map through unchanged, so
the outputs of hoisted body nodes receive no entries there — and, when such
an output is not written later, it still has no entry in the final map and
every read of it yielded `Defined`. -/
theorem c9_default_defined_reads :
    (∀ (s : SMap) (v : Nat), s v = none → stateGet s v = .Defined) ∧
    (∀ (fuel : Nat) (s : SMap) (fr i : Nat) (ins os : List Nat) (body : Blk)
      (bs : Blks) (rest : List Node) (outs : List Nat),
      (¬ ∀ v ∈ ins, stateGet s v = .Undefined) →
      (∀ v ∈ ins, stateGet s v ≠ .Unknown) →
      os.length ≤ body.boutputs.length →
      runNodesF (fuel + 1) s fr
          (Node.mk i .gradOf ins os (.cons body bs) :: rest) outs =
        Except.map (fun r => (body.bnodes.toList ++ r.1, r.2))
          (runNodesF fuel s fr
            (substAll (os.zip body.boutputs) rest outs).1
            (substAll (os.zip body.boutputs) rest outs).2)) ∧
    (∀ (fuel : Nat) (s : SMap) (fr i : Nat) (ins os : List Nat) (body : Blk)
      (bs : Blks) (rest : List Node) (outs : List Nat) (ns : List Node)
      (os' : List Nat) (s' : SMap) (w : Nat),
      (¬ ∀ v ∈ ins, stateGet s v = .Undefined) →
      (∀ v ∈ ins, stateGet s v ≠ .Unknown) →
      os.length ≤ body.boutputs.length →
      runNodesF (fuel + 1) s fr
          (Node.mk i .gradOf ins os (.cons body bs) :: rest) outs =
        .ok (ns, os', s') →
      s w = none → w ∉ topOutputs rest → w < fr →
      s' w = none ∧ stateGet s' w = .Defined) := by
  refine ⟨?_, ?_, ?_⟩
  · intro s v h
    unfold stateGet
    rw [h]
    rfl
  · intro fuel s fr i ins os body bs rest outs hnall hnu hlen
    exact run_gradOf_hoist fuel s fr i ins os body bs rest outs hnall hnu hlen
  · intro fuel s fr i ins os body bs rest outs ns os' s' w hnall hnu hlen
      hrun hw hwt hwf
    rw [run_gradOf_hoist fuel s fr i ins os body bs rest outs hnall hnu hlen]
      at hrun
    cases hrec : runNodesF fuel s fr
        (substAll (os.zip body.boutputs) rest outs).1
        (substAll (os.zip body.boutputs) rest outs).2 with
    | ok r =>
      obtain ⟨ns1, os1, s1⟩ := r
      rw [hrec] at hrun
      simp only [Except.map] at hrun
      cases hrun
      have hpres := run_smap_preserved fuel _ _ _ _ _ _ _ w hrec
        (by
          rw [topOutputs_substAll]
          exact hwt) hwf
      refine ⟨by rw [hpres, hw], ?_⟩
      unfold stateGet
      rw [hpres, hw]
      rfl
    | error e =>
      rw [hrec] at hrun
      simp only [Except.map] at hrun
      cases hrun

/-- Concrete instance for the C9 amended-claim witness: after hoisting, the
body node's output `v2` has no entry in the final state map and reads
`Defined`. -/
theorem c9_default_defined_reads_witness :
    stateGet SMap.empty 5 = .Defined ∧
    ((seedMap [(0, Ty.dynamic)]) 2 = none ∧ (2 : Nat) ∉ topOutputs [] ∧
      2 < 20) ∧
    ((seedMap [(0, Ty.dynamic)]) 2 = none ∧
      stateGet (seedMap [(0, Ty.dynamic)]) 2 = .Defined) := by
  refine ⟨c9_default_defined_reads.1 SMap.empty 5 rfl,
    ⟨by decide, by simp [topOutputs], by omega⟩, ?_⟩
  exact c9_default_defined_reads.2.2 1 (seedMap [(0, Ty.dynamic)]) 20 1 [0]
    [10] (Blk.mk (.cons (.mk 2 (.otherK 5) [0] [2] .nil) .nil) [2]) .nil
    [] [10] [Node.mk 2 (.otherK 5) [0] [2] Blks.nil] [2] _ 2
    (by decide) (by decide) (by decide) rfl (by decide) (by simp [topOutputs])
    (by omega)

end SU
